import Mathlib

/-!
# Verification of the SimpleOS-rs early-boot memory subsystem

Shallow embedding of the physical-memory buddy allocator
(`src/kernel/src/memory/phys_manager.rs`), the kernel-side address
translation pair (`src/kernel/src/memory/virt_manager.rs`), the
bootloader page-table bootstrap (`src/bootloader/src/paging.rs`) and the
bootloader memory-map conversion loop (`src/bootloader/src/main.rs`),
together with proofs about them.

Machine integers (`u64`, `u32`) are modelled as `Nat` with explicit
`% 2^64` / bound hypotheses where overflow matters.  Storage pointers
(`*mut FreeEntry`) are modelled as page indices (`Option Nat`, `none`
standing for the null pointer): both storage backends guarantee that
`get_entry` and `get_index` are mutual inverses, so a `FreeEntry`
pointer carries exactly the information of its page index.  Fallible
code (array indexing that can trip bounds checks, the `u32` subtraction
in `get_size_order`, the out-of-memory path of `alloc_block`) returns
`Option`.
-/

namespace SimpleOS

/-- `MAX_ORDER` from `phys_manager.rs`: maximum order of a buddy allocation. -/
def MAX_ORDER : Nat := 8

/-- `FreeEntry` from `phys_manager.rs`: metadata of one unallocated area.
`next`/`prev` pointers are represented by the page index of the entry
they point to (`none` = null). -/
structure FreeEntry where
  order : Nat
  next : Option Nat
  prev : Option Nat
deriving DecidableEq

/-- The mutable state of `PhysMemoryManager`: the buddy bitmap (an array of
64-bit words, modelled as a function from word index to word value), the
`FreeEntry` storage (one potential entry per page index, as provided by a
`PhysManagerStorage` backend) and the `free_lists` array of list heads. -/
structure BuddyState where
  buddyMap : Nat → Nat
  entries : Nat → FreeEntry
  freeLists : Nat → Option Nat

/-- Pointwise function update (used to model writes to arrays and to
`FreeEntry` storage). -/
def updFn {α : Type} (f : Nat → α) (i : Nat) (v : α) : Nat → α :=
  fun j => if j = i then v else f j

/-- Test of the buddy bitmap bit of page `index`:
`buddy_map[index / 64] & (1 << (index % 64)) != 0`. -/
def testBit (s : BuddyState) (index : Nat) : Bool :=
  s.buddyMap (index / 64) &&& (1 <<< (index % 64)) != 0

/-- `buddy_map[index / 64] |= 1 << (index % 64)`. -/
def setBit (s : BuddyState) (index : Nat) : BuddyState :=
  { s with buddyMap := updFn s.buddyMap (index / 64) (s.buddyMap (index / 64) ||| (1 <<< (index % 64))) }

/-- `buddy_map[index / 64] &= !(1 << (index % 64))`; the `u64` complement
`!x` is `x ^^^ (2^64 - 1)`. -/
def clearBit (s : BuddyState) (index : Nat) : BuddyState :=
  { s with buddyMap := updFn s.buddyMap (index / 64) (s.buddyMap (index / 64) &&& ((1 <<< (index % 64)) ^^^ (2 ^ 64 - 1))) }

/-- Write a `FreeEntry` to the storage location of page `index`
(`entry_ptr.write(...)`). -/
def writeEntry (s : BuddyState) (index : Nat) (e : FreeEntry) : BuddyState :=
  { s with entries := updFn s.entries index e }

/-- `PhysMemoryManager::get_buddy_index`: `index ^ (1 << order)`. -/
def get_buddy_index (index order : Nat) : Nat :=
  index ^^^ (1 <<< order)

/-- `PhysMemoryManager::get_combined_index`: `index & !(1 << order)`. -/
def get_combined_index (index order : Nat) : Nat :=
  index &&& ((1 <<< order) ^^^ (2 ^ 64 - 1))

/-- `PhysMemoryManager::remove_buddy_list_entry`, acting on the list with
head `free_lists[o]` and the entry stored at index `e`. -/
def removeListEntry (s : BuddyState) (o : Nat) (e : Nat) : BuddyState :=
  let ent := s.entries e
  let s1 :=
    match ent.prev with
    | none => { s with freeLists := updFn s.freeLists o ent.next }
    | some p =>
        { s with entries := updFn s.entries p { s.entries p with next := ent.next } }
  match ent.next with
  | none => s1
  | some n =>
      { s1 with entries := updFn s1.entries n { s1.entries n with prev := ent.prev } }

/-- `PhysMemoryManager::push_buddy_list_entry`, pushing the entry stored at
index `e` to the front of the list with head `free_lists[o]`. -/
def pushListEntry (s : BuddyState) (o : Nat) (e : Nat) : BuddyState :=
  match s.freeLists o with
  | none => { s with freeLists := updFn s.freeLists o (some e) }
  | some h =>
      let s1 := { s with entries := updFn s.entries e { s.entries e with next := some h } }
      let s2 := { s1 with entries := updFn s1.entries h { s1.entries h with prev := some e } }
      { s2 with freeLists := updFn s2.freeLists o (some e) }

/-- `PhysMemoryManager::pop_buddy_list_entry`: pops and returns the first
entry of the list with head `free_lists[o]` (`none` if the list is empty). -/
def popListEntry (s : BuddyState) (o : Nat) : Option Nat × BuddyState :=
  match s.freeLists o with
  | none => (none, s)
  | some h =>
      let s1 := { s with freeLists := updFn s.freeLists o (s.entries h).next }
      match (s.entries h).next with
      | none => (some h, s1)
      | some n =>
          (some h, { s1 with entries := updFn s1.entries n { s1.entries n with prev := none } })

/-- `PhysMemoryManager::free_block`, with an explicit recursion-depth fuel.
The recursion increases `order` and stops at `MAX_ORDER`, so any fuel
`≥ MAX_ORDER + 1 - order` is enough; callers use fuel `MAX_ORDER + 1`.
Accessing `free_lists[order]` with `order > MAX_ORDER` would trip the
array bounds check of the `[*mut FreeEntry; MAX_ORDER+1]` array, which is
modelled by returning `none`. -/
def free_block_go : Nat → BuddyState → Nat → Nat → Option BuddyState
  | 0, _, _, _ => none
  | fuel + 1, s, index, order =>
      if order > MAX_ORDER then none
      else
        let buddy_index := get_buddy_index index order
        if order < MAX_ORDER ∧ testBit s buddy_index = true ∧
            (s.entries buddy_index).order = order then
          let s1 := clearBit s buddy_index
          let s2 := removeListEntry s1 order buddy_index
          free_block_go fuel s2 (get_combined_index index order) (order + 1)
        else
          let s1 := setBit s index
          let s2 := writeEntry s1 index ⟨order, none, none⟩
          some (pushListEntry s2 order index)

/-- `PhysMemoryManager::free_block`. -/
def free_block (s : BuddyState) (index order : Nat) : Option BuddyState :=
  free_block_go (MAX_ORDER + 1) s index order

/-- `PhysMemoryManager::alloc_block`, with fuel like `free_block_go`.
A `none` result models the `panic!("Out of physical memory")` (or an
out-of-bounds `free_lists[order]` access when `order > MAX_ORDER`). -/
def alloc_block_go : Nat → BuddyState → Nat → Option (Nat × BuddyState)
  | 0, _, _ => none
  | fuel + 1, s, order =>
      if order > MAX_ORDER then none
      else
        match popListEntry s order with
        | (some e, s') =>
            -- `get_index(entry)` recovers the page index of the popped entry.
            some (e, clearBit s' e)
        | (none, _) =>
            if order = MAX_ORDER then none
            else
              match alloc_block_go fuel s (order + 1) with
              | none => none
              | some (higher_block, s1) =>
                  let buddy_index := get_buddy_index higher_block order
                  let s2 := setBit s1 buddy_index
                  let s3 := writeEntry s2 buddy_index ⟨order, none, none⟩
                  some (higher_block, pushListEntry s3 order buddy_index)

/-- `PhysMemoryManager::alloc_block`. -/
def alloc_block (s : BuddyState) (order : Nat) : Option (Nat × BuddyState) :=
  alloc_block_go (MAX_ORDER + 1) s order

/-- `u64::trailing_zeros`, computed by repeated halving (64 rounds suffice
for any `u64` value; `trailing_zeros 0 = 64`). -/
def ctzAux : Nat → Nat → Nat
  | 0, _ => 0
  | fuel + 1, n => if n % 2 = 1 then 0 else ctzAux fuel (n / 2) + 1

/-- `u64::trailing_zeros`. -/
def trailing_zeros (n : Nat) : Nat := ctzAux 64 n

/-- Bit length of `n`, computed by repeated halving (64 rounds suffice for
any `u64` value). -/
def sizeAux : Nat → Nat → Nat
  | 0, _ => 0
  | fuel + 1, n => if n = 0 then 0 else sizeAux fuel (n / 2) + 1

/-- `u64::leading_zeros`: `64` minus the bit length. -/
def leading_zeros (n : Nat) : Nat := 64 - sizeAux 64 n

/-- `PhysMemoryManager::add_region`'s loop body, with the remaining page
count as fuel (each iteration frees at least one page, so fuel
`page_count` is enough). -/
def add_region_go : Nat → BuddyState → Nat → Nat → Option BuddyState
  | 0, s, _, page_count => if page_count = 0 then some s else none
  | fuel + 1, s, index, page_count =>
      if page_count = 0 then some s
      else
        let index_order := trailing_zeros index
        let count_order := 63 - leading_zeros page_count
        let order := min (min index_order count_order) MAX_ORDER
        match free_block s index order with
        | none => none
        | some s' =>
            add_region_go fuel s' (index + (1 <<< order)) (page_count - (1 <<< order))

/-- `PhysMemoryManager::add_region`. -/
def add_region (s : BuddyState) (index page_count : Nat) : Option BuddyState :=
  add_region_go page_count s index page_count

/-- `PhysMemoryManager::get_size_order`.  The Rust source computes
`63 - count.leading_zeros()` in `u32` arithmetic; for `count = 0` the
subtraction `63 - 64` underflows, which is a `panic` under the debug
overflow semantics the kernel's test suite runs with — modelled by
`none`. -/
def get_size_order (count : Nat) : Option Nat :=
  if leading_zeros count ≤ 63 then
    let order := 63 - leading_zeros count
    if count &&& (1 <<< order) != count then some (order + 1) else some order
  else none

/-- `PhysMemoryManager::free_page`. -/
def free_page (s : BuddyState) (addr : Nat) : Option BuddyState :=
  free_block s (addr >>> 12) 0

/-- `PhysMemoryManager::free_linear_pages`. -/
def free_linear_pages (s : BuddyState) (addr count : Nat) : Option BuddyState :=
  match get_size_order count with
  | none => none
  | some o => free_block s (addr >>> 12) o

/-- `PhysMemoryManager::alloc_page`. -/
def alloc_page (s : BuddyState) : Option (Nat × BuddyState) :=
  (alloc_block s 0).map fun p => (p.1 <<< 12, p.2)

/-- `PhysMemoryManager::alloc_linear_pages`. -/
def alloc_linear_pages (s : BuddyState) (count : Nat) : Option (Nat × BuddyState) :=
  match get_size_order count with
  | none => none
  | some o => (alloc_block s o).map fun p => (p.1 <<< 12, p.2)

/-- `PhysMemoryManager::free_pages`: the loop frees one order-0 block
per address in the slice, modelled as the address list. -/
def free_pages (s : BuddyState) (addresses : List Nat) : Option BuddyState :=
  match addresses with
  | [] => some s
  | addr :: rest =>
      match free_block s (addr >>> 12) 0 with
      | none => none
      | some s1 => free_pages s1 rest

/-- `PhysMemoryManager::alloc_pages`: the loop allocates one order-0
block per slot of the output slice (of length `n`) and stores its byte
address there, modelled as the produced address list. -/
def alloc_pages (s : BuddyState) (n : Nat) : Option (List Nat × BuddyState) :=
  match n with
  | 0 => some ([], s)
  | n + 1 =>
      match alloc_block s 0 with
      | none => none
      | some (i, s1) =>
          match alloc_pages s1 n with
          | none => none
          | some (addrs, s2) => some (i <<< 12 :: addrs, s2)

/-- `MemorySegmentState` from `common-structures`. -/
inductive MemorySegmentState where
  | Free : MemorySegmentState
  | Occupied : MemorySegmentState
deriving DecidableEq

/-- `MemorySegment` from `common-structures` (`start` is a byte address). -/
structure MemorySegment where
  start : Nat
  page_count : Nat
  state : MemorySegmentState
deriving DecidableEq

/-- The all-occupied allocator state right after storage initialization:
the bitmap is zeroed and every free list is empty (`null`).  The
`FreeEntry` storage holds arbitrary junk; it is modelled as zeroed. -/
def initState : BuddyState :=
  { buddyMap := fun _ => 0
  , entries := fun _ => ⟨0, none, none⟩
  , freeLists := fun _ => none }

/-- The free-segment ingestion loop of `PhysMemoryManager::new`: every
memory-map entry marked `Free` is handed to `add_region` (with its byte
start converted to a page index). -/
def ingest (memory_map : List MemorySegment) : Option BuddyState :=
  memory_map.foldl
    (fun acc e =>
      match acc with
      | none => none
      | some s =>
          if e.state = MemorySegmentState.Free then
            add_region s (e.start >>> 12) e.page_count
          else some s)
    (some initState)

/-! ## Basic facts about the integer helpers -/

lemma sizeAux_eq_size : ∀ fuel n, n < 2 ^ fuel → sizeAux fuel n = Nat.size n := by
  intro fuel
  induction fuel with
  | zero =>
      intro n hn
      interval_cases n
      simp [sizeAux]
  | succ fuel ih =>
      intro n hn
      by_cases h0 : n = 0
      · simp [sizeAux, h0]
      · have hdiv : n / 2 < 2 ^ fuel := by
          rw [Nat.div_lt_iff_lt_mul (by norm_num)]
          calc n < 2 ^ (fuel + 1) := hn
            _ = 2 ^ fuel * 2 := by ring
        have hsz : Nat.size n = Nat.size (n / 2) + 1 := by
          conv_lhs => rw [← Nat.bit_decomp n]
          rw [Nat.size_bit, Nat.div2_val]
          rwa [Nat.bit_decomp]
        simp only [sizeAux, h0, if_false, ih _ hdiv, hsz]

lemma size_bounds {c : Nat} (h1 : 1 ≤ c) (h64 : c < 2 ^ 64) :
    1 ≤ sizeAux 64 c ∧ sizeAux 64 c ≤ 64 ∧
      2 ^ (sizeAux 64 c - 1) ≤ c ∧ c < 2 ^ sizeAux 64 c := by
  rw [sizeAux_eq_size 64 c h64]
  refine ⟨Nat.size_pos.mpr h1, Nat.size_le.mpr h64, ?_, Nat.lt_size_self c⟩
  have := Nat.lt_size (m := Nat.size c - 1) (n := c)
  apply this.mp
  have : 0 < Nat.size c := Nat.size_pos.mpr h1
  omega

/-- The bit at position `size - 1` of a positive number is set. -/
lemma testBit_size_sub_one {c : Nat} (h1 : 1 ≤ c) (h64 : c < 2 ^ 64) :
    c.testBit (sizeAux 64 c - 1) = true := by
  obtain ⟨hs1, _, hlow, hhigh⟩ := size_bounds h1 h64
  rw [Nat.testBit_to_div_mod]
  have hdiv : c / 2 ^ (sizeAux 64 c - 1) = 1 := by
    have h2 : c < 2 ^ (sizeAux 64 c - 1) * 2 := by
      have he : 2 ^ (sizeAux 64 c - 1) * 2 = 2 ^ (sizeAux 64 c - 1 + 1) := by ring
      have he2 : sizeAux 64 c - 1 + 1 = sizeAux 64 c := by omega
      rw [he, he2]
      exact hhigh
    have hd : 0 < 2 ^ (sizeAux 64 c - 1) := Nat.pos_pow_of_pos _ (by norm_num)
    have hge : 1 ≤ c / 2 ^ (sizeAux 64 c - 1) := (Nat.one_le_div_iff hd).mpr hlow
    have hlt : c / 2 ^ (sizeAux 64 c - 1) < 2 :=
      (Nat.div_lt_iff_lt_mul hd).mpr (by linarith)
    omega
  simp [hdiv]

/-! ## C7: `get_size_order` returns the smallest order whose block covers
`count` pages -/

/-- **C7**: for every `count ≥ 1` (in `u64` range), `get_size_order count`
returns the smallest order `o` such that `2^o ≥ count`; in particular the
values at `1, 2, 3, 4, 13` are `0, 1, 2, 2, 4`. -/
theorem C7_get_size_order_minimal :
    (∀ c, 1 ≤ c → c < 2 ^ 64 →
      ∃ o, get_size_order c = some o ∧ c ≤ 2 ^ o ∧ ∀ k, c ≤ 2 ^ k → o ≤ k) ∧
    get_size_order 1 = some 0 ∧ get_size_order 2 = some 1 ∧
    get_size_order 3 = some 2 ∧ get_size_order 4 = some 2 ∧
    get_size_order 13 = some 4 := by
  refine ⟨?_, by decide, by decide, by decide, by decide, by decide⟩
  intro c h1 h64
  obtain ⟨hs1, hs64, hlow, hhigh⟩ := size_bounds h1 h64
  have hlz : leading_zeros c = 64 - sizeAux 64 c := rfl
  have hlz63 : leading_zeros c ≤ 63 := by rw [hlz]; omega
  have horder : 63 - leading_zeros c = sizeAux 64 c - 1 := by rw [hlz]; omega
  have hand : c &&& (1 <<< (63 - leading_zeros c)) = 2 ^ (sizeAux 64 c - 1) := by
    rw [horder, Nat.one_shiftLeft, Nat.and_two_pow, testBit_size_sub_one h1 h64]
    simp
  unfold get_size_order
  rw [if_pos hlz63]
  simp only [hand]
  by_cases heq : c = 2 ^ (sizeAux 64 c - 1)
  · have : (2 ^ (sizeAux 64 c - 1) != c) = false :=
      bne_eq_false_iff_eq.mpr heq.symm
    rw [this]
    simp only [Bool.false_eq_true, if_false]
    refine ⟨63 - leading_zeros c, rfl, by rw [horder]; omega, ?_⟩
    intro k hk
    rw [horder]
    have : 2 ^ (sizeAux 64 c - 1) ≤ 2 ^ k := heq ▸ hk
    exact (Nat.pow_le_pow_iff_right (by norm_num)).mp this
  · have : (2 ^ (sizeAux 64 c - 1) != c) = true :=
      bne_iff_ne.mpr (Ne.symm heq)
    rw [this]
    simp only [if_true]
    refine ⟨63 - leading_zeros c + 1, rfl, ?_, ?_⟩
    · rw [horder]
      have : sizeAux 64 c - 1 + 1 = sizeAux 64 c := by omega
      rw [this]
      omega
    · intro k hk
      rw [horder]
      by_contra hcon
      push_neg at hcon
      have hk' : k ≤ sizeAux 64 c - 1 := by omega
      have : 2 ^ k ≤ 2 ^ (sizeAux 64 c - 1) :=
        Nat.pow_le_pow_right (by norm_num) hk'
      omega

/-- Witness for C7 at `count = 13`. -/
theorem C7_get_size_order_minimal_witness :
    (1 : Nat) ≤ 13 ∧ (13 : Nat) < 2 ^ 64 ∧
      ∃ o, get_size_order 13 = some o ∧ 13 ≤ 2 ^ o ∧ ∀ k, 13 ≤ 2 ^ k → o ≤ k :=
  ⟨by norm_num, by norm_num,
    C7_get_size_order_minimal.1 13 (by norm_num) (by norm_num)⟩

/-! ## C10: `count = 0` makes the `u32` subtraction in `get_size_order`
underflow, so the public linear-page operations are not total at 0 -/

/-- **C10**: `leading_zeros 0 = 64`, so `63 - leading_zeros 0` underflows
`u32` subtraction and `get_size_order 0` fails (debug overflow semantics);
consequently `alloc_linear_pages` and `free_linear_pages` with
`count = 0` fail instead of allocating or freeing nothing. -/
theorem C10_zero_count_underflow :
    leading_zeros 0 = 64 ∧ get_size_order 0 = none ∧
    (∀ s : BuddyState, alloc_linear_pages s 0 = none) ∧
    (∀ (s : BuddyState) (addr : Nat), free_linear_pages s addr 0 = none) := by
  refine ⟨rfl, rfl, fun s => rfl, fun s addr => rfl⟩

/-! ## C3: the memory map stored in the handoff header
(`src/bootloader/src/main.rs`, `efi_main` conversion loop) -/

/-- The UEFI memory descriptor types the conversion loop distinguishes. -/
inductive MemoryType where
  | LOADER_CODE : MemoryType
  | LOADER_DATA : MemoryType
  | BOOT_SERVICES_CODE : MemoryType
  | BOOT_SERVICES_DATA : MemoryType
  | CONVENTIONAL : MemoryType
  | RESERVED : MemoryType
deriving DecidableEq

/-- A firmware memory descriptor as consumed by the conversion loop. -/
structure UefiDescriptor where
  phys_start : Nat
  page_count : Nat
  ty : MemoryType
deriving DecidableEq

/-- The `match entry.ty` arm of the conversion loop in `efi_main`. -/
def segment_state_of_type (ty : MemoryType) : MemorySegmentState :=
  match ty with
  | MemoryType.BOOT_SERVICES_CODE => MemorySegmentState.Free
  | MemoryType.BOOT_SERVICES_DATA => MemorySegmentState.Free
  | MemoryType.CONVENTIONAL => MemorySegmentState.Free
  | MemoryType.LOADER_CODE => MemorySegmentState.Free
  | _ => MemorySegmentState.Occupied

/-- The `for (i, entry) in uefi_memory_map.enumerate()` loop of `efi_main`:
each firmware descriptor is converted to one `MemorySegment` in place. -/
def convert_memory_map (m : List UefiDescriptor) : List MemorySegment :=
  m.map fun e => ⟨e.phys_start, e.page_count, segment_state_of_type e.ty⟩

/-- A firmware map with two physically adjacent `CONVENTIONAL` entries. -/
def adjacentConventional : List UefiDescriptor :=
  [⟨0, 1, MemoryType.CONVENTIONAL⟩, ⟨4096, 1, MemoryType.CONVENTIONAL⟩]

/-- **C3 counterexample**: the claim says the stored memory map never has
two consecutive physically adjacent entries of equal state; converting a
firmware map with two adjacent `CONVENTIONAL` descriptors produces
exactly that. -/
theorem C3_counterexample_no_coalescing :
    (convert_memory_map adjacentConventional).length = 2 ∧
    ((convert_memory_map adjacentConventional).getD 0 ⟨0, 0, MemorySegmentState.Occupied⟩).state =
      ((convert_memory_map adjacentConventional).getD 1 ⟨0, 0, MemorySegmentState.Occupied⟩).state ∧
    ((convert_memory_map adjacentConventional).getD 1 ⟨0, 0, MemorySegmentState.Occupied⟩).start =
      ((convert_memory_map adjacentConventional).getD 0 ⟨0, 0, MemorySegmentState.Occupied⟩).start +
        ((convert_memory_map adjacentConventional).getD 0 ⟨0, 0, MemorySegmentState.Occupied⟩).page_count * 4096 := by
  refine ⟨rfl, rfl, rfl⟩

/-- **C3 (amended)**: the loader stores the firmware memory map converted
entry-for-entry — `start` and `page_count` are copied and the state is
`Free` exactly for the four boot-reclaimable types — with no coalescing
of adjacent equal-state runs. -/
theorem C3_memory_map_conversion (m : List UefiDescriptor) (k : Nat) :
    (convert_memory_map m).length = m.length ∧
    (convert_memory_map m)[k]? =
      (m[k]?).map fun e =>
        MemorySegment.mk e.phys_start e.page_count (segment_state_of_type e.ty) := by
  constructor
  · simp [convert_memory_map]
  · simp [convert_memory_map, List.getElem?_map]

/-! ## Page-table bootstrap (`src/bootloader/src/paging.rs`) -/

/-- Present bit of a page table entry. -/
def PML_P : Nat := 0x1
/-- Writable bit of a page table entry. -/
def PML_RW : Nat := 0x2
/-- `PML4_ENTRY_BASE = PML_P | PML_RW`. -/
def PML4_ENTRY_BASE : Nat := PML_P ||| PML_RW

/-- The masking step of `platform::init`:
`physical_size &= 0x0000_7FFF_FFFF_FFFF`. -/
def masked_physical_size (physical_size : Nat) : Nat :=
  physical_size &&& 0x00007FFFFFFFFFFF

/-- `pml4_entries = (physical_size >> 39) + 1` (after masking). -/
def pml4_entries (physical_size : Nat) : Nat :=
  (masked_physical_size physical_size >>> 39) + 1

/-- `pml4_pages = (pml4_entries * 8 + 4095) / 4096`. -/
def pml4_pages (physical_size : Nat) : Nat :=
  (pml4_entries physical_size * 8 + 4095) / 4096

/-- The PML4 entry value written for loop index `i`:
`(i * 4096 + pml4_pages * 4096 + page_buffer_ptr) | PML4_ENTRY_BASE`. -/
def pml4_entry_val (page_buffer_ptr physical_size i : Nat) : Nat :=
  (i * 4096 + pml4_pages physical_size * 4096 + page_buffer_ptr) ||| PML4_ENTRY_BASE

/-- The PML4 fill loop of `platform::init`: for each
`pml4_entry in 0..pml4_entries`, the entry value is written to slot
`pml4_entry` and to slot `512 - pml4_entries + pml4_entry` of the
top-level table (modelled as a function from slot to entry value,
initially zeroed). -/
def pml4_table (page_buffer_ptr physical_size : Nat) : Nat → Nat :=
  (List.range (pml4_entries physical_size)).foldl
    (fun t i =>
      updFn (updFn t i (pml4_entry_val page_buffer_ptr physical_size i))
        (512 - pml4_entries physical_size + i)
        (pml4_entry_val page_buffer_ptr physical_size i))
    (fun _ => 0)

/-- `HIGH_MEM_BASE = 0xFFFF_0000_0000_0000 | ((512 - pml4_entries) << 39)`. -/
def high_mem_base (physical_size : Nat) : Nat :=
  0xFFFF000000000000 ||| ((512 - pml4_entries physical_size) <<< 39)

lemma masked_physical_size_le (physical_size : Nat) :
    masked_physical_size physical_size ≤ 0x00007FFFFFFFFFFF :=
  Nat.and_le_right

lemma pml4_entries_le_256 (physical_size : Nat) :
    pml4_entries physical_size ≤ 256 := by
  unfold pml4_entries
  have h := masked_physical_size_le physical_size
  rw [Nat.shiftRight_eq_div_pow]
  have : masked_physical_size physical_size / 2 ^ 39 ≤ 0x00007FFFFFFFFFFF / 2 ^ 39 :=
    Nat.div_le_div_right h
  have he : (0x00007FFFFFFFFFFF : Nat) / 2 ^ 39 = 255 := by norm_num
  omega

/-! ## C9: the PML4 always fits in exactly one page -/

/-- **C9**: after masking to the 47-bit usable width, `pml4_entries` is at
most 256, hence `pml4_pages = (pml4_entries*8 + 4095) / 4096 = 1` for
every input `physical_size`, and the fatal assertion
`pml4_pages == 1` can never fire. -/
theorem C9_pml4_single_page (physical_size : Nat) :
    pml4_entries physical_size ≤ 256 ∧ pml4_pages physical_size = 1 := by
  have h := pml4_entries_le_256 physical_size
  refine ⟨h, ?_⟩
  unfold pml4_pages
  have h1 : 1 ≤ pml4_entries physical_size := Nat.le_add_left 1 _
  omega

/-! ## C6: PML4 mirroring and the high-memory base -/

lemma pml4_fold_lo (e : Nat → Nat) (N : Nat) (hN : N ≤ 256) :
    ∀ m t i, i < m → m ≤ N →
      ((List.range m).foldl
        (fun t j => updFn (updFn t j (e j)) (512 - N + j) (e j)) t) i = e i := by
  intro m
  induction m with
  | zero => intro t i hi _; omega
  | succ m ih =>
      intro t i hi hm
      rw [List.range_succ, List.foldl_append]
      simp only [List.foldl_cons, List.foldl_nil]
      have hhi : i ≠ 512 - N + m := by omega
      unfold updFn
      rw [if_neg hhi]
      by_cases heq : i = m
      · rw [if_pos heq, heq]
      · rw [if_neg heq]
        exact ih t i (by omega) (by omega)

lemma pml4_fold_hi (e : Nat → Nat) (N : Nat) (hN : N ≤ 256) :
    ∀ m t i, i < m → m ≤ N →
      ((List.range m).foldl
        (fun t j => updFn (updFn t j (e j)) (512 - N + j) (e j)) t) (512 - N + i) = e i := by
  intro m
  induction m with
  | zero => intro t i hi _; omega
  | succ m ih =>
      intro t i hi hm
      rw [List.range_succ, List.foldl_append]
      simp only [List.foldl_cons, List.foldl_nil]
      unfold updFn
      by_cases heq : i = m
      · rw [if_pos (by omega : 512 - N + i = 512 - N + m), heq]
      · rw [if_neg (by omega : ¬(512 - N + i = 512 - N + m)),
          if_neg (by omega : ¬(512 - N + i = m))]
        exact ih t i (by omega) (by omega)

/-- **C6**: after the PML4 fill loop runs with `N = pml4_entries` entries,
slot `i` and slot `512 - N + i` of the top-level table hold the identical
entry value for every `i < N`, and the high-memory base equals
`0xFFFF000000000000 | ((512 - N) << 39)`. -/
theorem C6_pml4_mirror (page_buffer_ptr physical_size i : Nat)
    (hi : i < pml4_entries physical_size) :
    pml4_table page_buffer_ptr physical_size i =
      pml4_table page_buffer_ptr physical_size (512 - pml4_entries physical_size + i) ∧
    pml4_table page_buffer_ptr physical_size i =
      pml4_entry_val page_buffer_ptr physical_size i ∧
    high_mem_base physical_size =
      0xFFFF000000000000 ||| ((512 - pml4_entries physical_size) <<< 39) := by
  have hN := pml4_entries_le_256 physical_size
  have hlo := pml4_fold_lo (pml4_entry_val page_buffer_ptr physical_size)
    (pml4_entries physical_size) hN (pml4_entries physical_size) (fun _ => 0) i hi le_rfl
  have hhi := pml4_fold_hi (pml4_entry_val page_buffer_ptr physical_size)
    (pml4_entries physical_size) hN (pml4_entries physical_size) (fun _ => 0) i hi le_rfl
  unfold pml4_table
  exact ⟨hlo.trans hhi.symm, hlo, rfl⟩

/-- Witness for C6 with a 1 TiB physical size (`pml4_entries = 3`). -/
theorem C6_pml4_mirror_witness :
    1 < pml4_entries (2 ^ 40) ∧
    (pml4_table 4096 (2 ^ 40) 1 =
        pml4_table 4096 (2 ^ 40) (512 - pml4_entries (2 ^ 40) + 1) ∧
      pml4_table 4096 (2 ^ 40) 1 = pml4_entry_val 4096 (2 ^ 40) 1 ∧
      high_mem_base (2 ^ 40) =
        0xFFFF000000000000 ||| ((512 - pml4_entries (2 ^ 40)) <<< 39)) :=
  ⟨by decide, C6_pml4_mirror 4096 (2 ^ 40) 1 (by decide)⟩

/-! ## C8: `get_entry` / `get_index` are mutual inverses
(`virt_manager.rs` translation pair, `InlineStorage` and `TestStorage`) -/

/-- `phys_to_virt` from `virt_manager.rs`: `phys | HIGH_MEM_BASE`. -/
def phys_to_virt (base p : Nat) : Nat := p ||| base

/-- `virt_to_phys` from `virt_manager.rs`: `virt & !HIGH_MEM_BASE`; the
`u64` complement is modelled as `base ^^^ (2^64 - 1)`. -/
def virt_to_phys (base v : Nat) : Nat := v &&& (base ^^^ (2 ^ 64 - 1))

/-- `InlineStorage::get_entry`: `phys_to_virt(index << 12)`. -/
def inline_get_entry (base index : Nat) : Nat := phys_to_virt base (index <<< 12)

/-- `InlineStorage::get_index`: `virt_to_phys(entry) >> 12`. -/
def inline_get_index (base entry : Nat) : Nat := virt_to_phys base entry >>> 12

/-- `TestStorage::get_entry`: `memory.as_ptr() + (index << 12)` in
wrapping `u64` pointer arithmetic. -/
def test_get_entry (memBase index : Nat) : Nat := (memBase + (index <<< 12)) % 2 ^ 64

/-- `TestStorage::get_index`: `(entry - memory.as_ptr()) >> 12` in
wrapping `u64` arithmetic. -/
def test_get_index (memBase entry : Nat) : Nat :=
  ((entry + 2 ^ 64 - memBase) % 2 ^ 64) >>> 12

lemma or_and_not_cancel {p base : Nat} (hp : p < 2 ^ 64) (hbase : base < 2 ^ 64)
    (h0 : p &&& base = 0) : virt_to_phys base (phys_to_virt base p) = p := by
  unfold virt_to_phys phys_to_virt
  apply Nat.eq_of_testBit_eq
  intro k
  have hdisj : (p.testBit k && base.testBit k) = false := by
    have := congrArg (fun x => Nat.testBit x k) h0
    simpa [Nat.testBit_and] using this
  rw [Nat.testBit_and, Nat.testBit_or, Nat.testBit_xor, Nat.testBit_two_pow_sub_one]
  by_cases hk : k < 64
  · simp only [hk, decide_eq_true_eq, if_true, decide_True]
    cases hb : base.testBit k
    · simp [hb]
    · rw [hb] at hdisj
      simp only [Bool.and_true] at hdisj
      simp [hb, hdisj]
  · have h64 : (2 : Nat) ^ 64 ≤ 2 ^ k := Nat.pow_le_pow_right (by norm_num) (by omega)
    have hpk : p.testBit k = false := Nat.testBit_eq_false_of_lt (by omega)
    have hbk : base.testBit k = false := Nat.testBit_eq_false_of_lt (by omega)
    simp [hk, hpk, hbk]

lemma shiftLeft12_shiftRight12 (i : Nat) : (i <<< 12) >>> 12 = i := by
  rw [Nat.shiftLeft_eq, Nat.shiftRight_eq_div_pow]
  exact Nat.mul_div_cancel i (by norm_num)

/-- **C8**: for both storage backends, `get_index` is the left inverse of
`get_entry` on the valid index range, and for the self-hosting backend
this reduces to the translation pair: `virt_to_phys (phys_to_virt p) = p`
whenever `p` carries no bit of the high-memory base. -/
theorem C8_storage_inverses :
    (∀ base p, p < 2 ^ 64 → base < 2 ^ 64 → p &&& base = 0 →
      virt_to_phys base (phys_to_virt base p) = p) ∧
    (∀ base index, index <<< 12 < 2 ^ 64 → base < 2 ^ 64 →
      (index <<< 12) &&& base = 0 →
      inline_get_index base (inline_get_entry base index) = index) ∧
    (∀ memBase index, memBase + (index <<< 12) < 2 ^ 64 →
      test_get_index memBase (test_get_entry memBase index) = index) := by
  refine ⟨fun base p hp hb h0 => or_and_not_cancel hp hb h0, ?_, ?_⟩
  · intro base index hi hb h0
    unfold inline_get_index inline_get_entry
    rw [or_and_not_cancel hi hb h0, shiftLeft12_shiftRight12]
  · intro memBase index hlt
    unfold test_get_index test_get_entry
    have hm : memBase ≤ 2 ^ 64 := by omega
    rw [Nat.mod_eq_of_lt hlt]
    have he : memBase + (index <<< 12) + 2 ^ 64 - memBase = (index <<< 12) + 2 ^ 64 := by
      omega
    rw [he, Nat.add_mod_right, Nat.mod_eq_of_lt (by omega), shiftLeft12_shiftRight12]

/-- Witness for C8: a concrete high-memory base and page index, and a
concrete test-backend buffer base. -/
theorem C8_storage_inverses_witness :
    ((5 : Nat) <<< 12 < 2 ^ 64 ∧ high_mem_base (2 ^ 40) < 2 ^ 64 ∧
      (5 <<< 12) &&& high_mem_base (2 ^ 40) = 0 ∧
      inline_get_index (high_mem_base (2 ^ 40))
        (inline_get_entry (high_mem_base (2 ^ 40)) 5) = 5) ∧
    (1000000 + ((7 : Nat) <<< 12) < 2 ^ 64 ∧
      test_get_index 1000000 (test_get_entry 1000000 7) = 7) :=
  ⟨⟨by decide, by decide, by decide,
      C8_storage_inverses.2.1 (high_mem_base (2 ^ 40)) 5 (by decide) (by decide) (by decide)⟩,
    ⟨by decide, C8_storage_inverses.2.2 1000000 7 (by decide)⟩⟩

/-! ## C1: the branch behavior of `free_block` -/

/-- `free_block_go` does not depend on the fuel once the fuel covers the
remaining recursion depth `MAX_ORDER + 1 - order`. -/
lemma free_block_go_fuel :
    ∀ f1 f2 s index order, order ≤ MAX_ORDER →
      MAX_ORDER + 1 - order ≤ f1 → MAX_ORDER + 1 - order ≤ f2 →
      free_block_go f1 s index order = free_block_go f2 s index order := by
  intro f1
  induction f1 with
  | zero =>
      intro f2 s i o ho h1 h2
      exfalso
      unfold MAX_ORDER at *
      omega
  | succ a ih =>
      intro f2 s i o ho h1 h2
      obtain ⟨b, rfl⟩ : ∃ b, f2 = b + 1 := ⟨f2 - 1, by unfold MAX_ORDER at *; omega⟩
      simp only [free_block_go]
      rw [if_neg (by omega : ¬ o > MAX_ORDER), if_neg (by omega : ¬ o > MAX_ORDER)]
      by_cases hm : o < MAX_ORDER ∧ testBit s (get_buddy_index i o) = true ∧
          (s.entries (get_buddy_index i o)).order = o
      · rw [if_pos hm, if_pos hm]
        exact ih b _ _ (o + 1) (by omega)
          (by unfold MAX_ORDER at *; omega) (by unfold MAX_ORDER at *; omega)
      · rw [if_neg hm, if_neg hm]

/-- The state produced by `PhysMemoryManager::new` on the memory map
`[0,1) Free`, `[1,4) Occupied` (page indices). -/
def crossOrderInit : BuddyState :=
  (ingest [⟨0, 1, MemorySegmentState.Free⟩,
           ⟨4096, 3, MemorySegmentState.Occupied⟩]).getD initState

/-- The state after additionally calling `free_linear_pages(2*4096, 2)`. -/
def crossOrderResult : BuddyState :=
  (free_linear_pages crossOrderInit (2 * 4096) 2).getD initState

/-- **C1**: `free_block(index, order)` merges exactly when
`order < MAX_ORDER`, the buddy's bitmap bit is set and the buddy's stored
order equals `order` — clearing the buddy bit, unlinking the buddy and
recursing on the combined index at `order + 1`; otherwise it sets the
index's bit, writes a `FreeEntry` of that order there and pushes it to
the front of `free_lists[order]`.  In particular, freeing `[2,4)` at
order 1 next to the unrelated order-0 free block at index 0 does not
merge with it even though its bitmap bit is set. -/
theorem C1_free_block_branches :
    (∀ s index order, order ≤ MAX_ORDER →
      (order < MAX_ORDER ∧ testBit s (get_buddy_index index order) = true ∧
          (s.entries (get_buddy_index index order)).order = order →
        free_block s index order =
          free_block
            (removeListEntry (clearBit s (get_buddy_index index order)) order
              (get_buddy_index index order))
            (get_combined_index index order) (order + 1)) ∧
      (¬(order < MAX_ORDER ∧ testBit s (get_buddy_index index order) = true ∧
          (s.entries (get_buddy_index index order)).order = order) →
        free_block s index order =
          some (pushListEntry
            (writeEntry (setBit s index) index ⟨order, none, none⟩) order index))) ∧
    (testBit crossOrderResult 0 = true ∧ testBit crossOrderResult 1 = false ∧
      testBit crossOrderResult 2 = true ∧ testBit crossOrderResult 3 = false ∧
      crossOrderResult.freeLists 0 = some 0 ∧
      crossOrderResult.freeLists 1 = some 2 ∧
      crossOrderResult.freeLists 2 = none ∧
      crossOrderResult.entries 2 = ⟨1, none, none⟩ ∧
      crossOrderResult.entries 0 = ⟨0, none, none⟩) := by
  constructor
  · intro s index order ho
    constructor
    · intro hm
      show free_block_go (MAX_ORDER + 1) s index order = _
      rw [show (MAX_ORDER + 1 : Nat) = 8 + 1 from rfl]
      simp only [free_block_go]
      rw [if_neg (by omega : ¬ order > MAX_ORDER), if_pos hm]
      exact free_block_go_fuel 8 (MAX_ORDER + 1) _ _ (order + 1)
        (by unfold MAX_ORDER at *; omega) (by unfold MAX_ORDER at *; omega)
        (by unfold MAX_ORDER at *; omega)
    · intro hm
      show free_block_go (MAX_ORDER + 1) s index order = _
      rw [show (MAX_ORDER + 1 : Nat) = 8 + 1 from rfl]
      simp only [free_block_go]
      rw [if_neg (by omega : ¬ order > MAX_ORDER), if_neg hm]
  · exact ⟨by decide, by decide, by decide, by decide, by decide, by decide,
      by decide, by decide, by decide⟩

/-- Witness for C1: the non-merging branch taken when freeing page 5 at
order 0 in the empty (all-occupied) state. -/
theorem C1_free_block_branches_witness :
    (0 : Nat) ≤ MAX_ORDER ∧
    ¬(0 < MAX_ORDER ∧ testBit initState (get_buddy_index 5 0) = true ∧
        (initState.entries (get_buddy_index 5 0)).order = 0) ∧
    free_block initState 5 0 =
      some (pushListEntry
        (writeEntry (setBit initState 5) 5 ⟨0, none, none⟩) 0 5) :=
  ⟨by decide, by decide,
    ((C1_free_block_branches.1 initState 5 0 (by decide)).2 (by decide))⟩

/-! ## C2: the branch behavior of `alloc_block` -/

/-- `alloc_block_go` does not depend on the fuel once the fuel covers the
remaining recursion depth. -/
lemma alloc_block_go_fuel :
    ∀ f1 f2 s order, order ≤ MAX_ORDER →
      MAX_ORDER + 1 - order ≤ f1 → MAX_ORDER + 1 - order ≤ f2 →
      alloc_block_go f1 s order = alloc_block_go f2 s order := by
  intro f1
  induction f1 with
  | zero =>
      intro f2 s o ho h1 h2
      exfalso
      unfold MAX_ORDER at *
      omega
  | succ a ih =>
      intro f2 s o ho h1 h2
      obtain ⟨b, rfl⟩ : ∃ b, f2 = b + 1 := ⟨f2 - 1, by unfold MAX_ORDER at *; omega⟩
      simp only [alloc_block_go]
      rw [if_neg (by omega : ¬ o > MAX_ORDER), if_neg (by omega : ¬ o > MAX_ORDER)]
      rcases hpop : popListEntry s o with ⟨r, s'⟩
      cases r
      · by_cases hmax : o = MAX_ORDER
        · rw [if_pos hmax, if_pos hmax]
        · rw [if_neg hmax, if_neg hmax,
            ih b s (o + 1) (by unfold MAX_ORDER at *; omega)
              (by unfold MAX_ORDER at *; omega) (by unfold MAX_ORDER at *; omega)]
      · rfl

/-- State produced by `new` on a 2-page free region. -/
def allocSplitInit : BuddyState :=
  (ingest [⟨0, 2, MemorySegmentState.Free⟩]).getD initState

/-- Result of `alloc_page` on the 2-page region. -/
def allocSplitRes : Nat × BuddyState :=
  (alloc_page allocSplitInit).getD (99, initState)

/-- State produced by `new` on a 1-page free region. -/
def allocSingleInit : BuddyState :=
  (ingest [⟨0, 1, MemorySegmentState.Free⟩]).getD initState

/-- Result of `alloc_page` on the 1-page region. -/
def allocSingleRes : Nat × BuddyState :=
  (alloc_page allocSingleInit).getD (99, initState)

/-- **C2**: `alloc_block(order)` pops the front of `free_lists[order]`,
clears its bitmap bit and returns its index when the list is non-empty;
fails fatally when the list is empty at `MAX_ORDER`; and otherwise splits
a recursively allocated block of `order + 1`, marking the buddy half free
at `order` and returning the base index.  The spec's scenarios: a 2-page
region yields page 0 with page 1 left free at order 0 and order 1 empty;
a 1-page region yields page 0 with every free list empty. -/
theorem C2_alloc_block_branches :
    (∀ s order, order ≤ MAX_ORDER →
      (∀ h, s.freeLists order = some h →
        alloc_block s order = some (h, clearBit (popListEntry s order).2 h)) ∧
      (s.freeLists order = none → order = MAX_ORDER → alloc_block s order = none) ∧
      (s.freeLists order = none → order < MAX_ORDER →
        alloc_block s order =
          (alloc_block s (order + 1)).map fun p =>
            (p.1,
              pushListEntry
                (writeEntry (setBit p.2 (get_buddy_index p.1 order))
                  (get_buddy_index p.1 order) ⟨order, none, none⟩)
                order (get_buddy_index p.1 order)))) ∧
    ((alloc_page allocSplitInit).isSome = true ∧ allocSplitRes.1 = 0 ∧
      testBit allocSplitRes.2 0 = false ∧ testBit allocSplitRes.2 1 = true ∧
      allocSplitRes.2.freeLists 0 = some 1 ∧
      (allocSplitRes.2.entries 1).order = 0 ∧
      allocSplitRes.2.freeLists 1 = none) ∧
    ((alloc_page allocSingleInit).isSome = true ∧ allocSingleRes.1 = 0 ∧
      testBit allocSingleRes.2 0 = false ∧
      ((List.range 9).all fun o => allocSingleRes.2.freeLists o == none) = true) := by
  refine ⟨?_, ⟨by decide, by decide, by decide, by decide, by decide, by decide, by decide⟩,
    ⟨by decide, by decide, by decide, by decide⟩⟩
  intro s order ho
  have hstep : alloc_block s order =
      if order > MAX_ORDER then none
      else
        match popListEntry s order with
        | (some e, s') => some (e, clearBit s' e)
        | (none, _) =>
            if order = MAX_ORDER then none
            else
              match alloc_block_go MAX_ORDER s (order + 1) with
              | none => none
              | some (higher_block, s1) =>
                  some (higher_block,
                    pushListEntry
                      (writeEntry (setBit s1 (get_buddy_index higher_block order))
                        (get_buddy_index higher_block order) ⟨order, none, none⟩)
                      order (get_buddy_index higher_block order)) := rfl
  refine ⟨?_, ?_, ?_⟩
  · intro h hfl
    have h1 : (popListEntry s order).1 = some h := by
      unfold popListEntry
      rw [hfl]
      cases hnext : (s.entries h).next <;> simp [hnext]
    rw [hstep, if_neg (by omega : ¬ order > MAX_ORDER)]
    rw [show popListEntry s order = (some h, (popListEntry s order).2) from by
      rw [← h1]]
  · intro hfl hmax
    have hpop : popListEntry s order = (none, s) := by
      unfold popListEntry
      rw [hfl]
    rw [hstep, if_neg (by omega : ¬ order > MAX_ORDER), hpop, if_pos hmax]
  · intro hfl hlt
    have hpop : popListEntry s order = (none, s) := by
      unfold popListEntry
      rw [hfl]
    have hfuel : alloc_block_go MAX_ORDER s (order + 1) = alloc_block s (order + 1) :=
      alloc_block_go_fuel MAX_ORDER (MAX_ORDER + 1) s (order + 1)
        (by unfold MAX_ORDER at *; omega) (by unfold MAX_ORDER at *; omega)
        (by unfold MAX_ORDER at *; omega)
    rw [hstep, if_neg (by omega : ¬ order > MAX_ORDER), hpop,
      if_neg (by omega : ¬ order = MAX_ORDER), hfuel]
    cases halloc : alloc_block s (order + 1) with
    | none => rfl
    | some p => rfl

/-- Witness for C2: the non-empty branch pops page 5 after it was freed
into the empty state. -/
theorem C2_alloc_block_branches_witness :
    (0 : Nat) ≤ MAX_ORDER ∧
    ((free_page initState (5 * 4096)).getD initState).freeLists 0 = some 5 ∧
    alloc_block ((free_page initState (5 * 4096)).getD initState) 0 =
      some (5, clearBit
        (popListEntry ((free_page initState (5 * 4096)).getD initState) 0).2 5) :=
  ⟨by decide, by decide,
    (C2_alloc_block_branches.1 ((free_page initState (5 * 4096)).getD initState) 0
      (by decide)).1 5 (by decide)⟩

/-! ## C4: greedy decomposition in `add_region` -/

lemma add_region_go_zero (f : Nat) (s : BuddyState) (index : Nat) :
    add_region_go f s index 0 = some s := by
  cases f <;> rfl

lemma add_region_go_succ (fuel : Nat) (s : BuddyState) (index pc : Nat) :
    add_region_go (fuel + 1) s index pc =
      if pc = 0 then some s
      else
        match free_block s index
            (min (min (trailing_zeros index) (63 - leading_zeros pc)) MAX_ORDER) with
        | none => none
        | some s' =>
            add_region_go fuel s'
              (index + (1 <<< min (min (trailing_zeros index) (63 - leading_zeros pc)) MAX_ORDER))
              (pc - (1 <<< min (min (trailing_zeros index) (63 - leading_zeros pc)) MAX_ORDER)) := rfl

/-- `add_region_go` does not depend on the fuel once the fuel covers the
remaining page count. -/
lemma add_region_go_fuel :
    ∀ f1 f2 s index pc, pc ≤ f1 → pc ≤ f2 →
      add_region_go f1 s index pc = add_region_go f2 s index pc := by
  intro f1
  induction f1 with
  | zero =>
      intro f2 s i pc h1 h2
      obtain rfl : pc = 0 := by omega
      rw [add_region_go_zero, add_region_go_zero]
  | succ a ih =>
      intro f2 s i pc h1 h2
      by_cases h0 : pc = 0
      · subst h0
        rw [add_region_go_zero, add_region_go_zero]
      · obtain ⟨b, rfl⟩ : ∃ b, f2 = b + 1 := ⟨f2 - 1, by omega⟩
        rw [add_region_go_succ, add_region_go_succ, if_neg h0, if_neg h0]
        cases hfb : free_block s i
            (min (min (trailing_zeros i) (63 - leading_zeros pc)) MAX_ORDER) with
        | none => rfl
        | some s' =>
            have hpow : 1 ≤ 1 <<< min (min (trailing_zeros i) (63 - leading_zeros pc)) MAX_ORDER := by
              rw [Nat.one_shiftLeft]
              exact Nat.one_le_two_pow
            exact ih b s' _ _ (by omega) (by omega)

lemma count_order_eq_log2 {pc : Nat} (h1 : 0 < pc) (h2 : pc < 2 ^ 64) :
    63 - leading_zeros pc = Nat.log2 pc := by
  obtain ⟨hs1, hs64, hlow, hhigh⟩ := size_bounds h1 h2
  have hlhs : 63 - leading_zeros pc = sizeAux 64 pc - 1 := by
    unfold leading_zeros
    omega
  rw [hlhs, Nat.log2_eq_log_two]
  symm
  apply Nat.log_eq_of_pow_le_of_lt_pow hlow
  have : sizeAux 64 pc - 1 + 1 = sizeAux 64 pc := by omega
  rw [this]
  exact hhigh

/-- State produced by `new` on `[68,70) Free` and `[70,72) Free`. -/
def regionCombined : BuddyState :=
  (ingest [⟨68 * 4096, 2, MemorySegmentState.Free⟩,
           ⟨70 * 4096, 2, MemorySegmentState.Free⟩]).getD initState

/-- State produced by `new` on `[68,70) Free` and `[70,71) Free`. -/
def regionSplit : BuddyState :=
  (ingest [⟨68 * 4096, 2, MemorySegmentState.Free⟩,
           ⟨70 * 4096, 1, MemorySegmentState.Free⟩]).getD initState

/-- **C4**: `add_region` greedily frees one block of order
`min(trailing_zeros index, floor_log2 page_count, MAX_ORDER)` per step,
advancing the index and shrinking the count by `2^order`, and terminates
exactly when the count is 0.  The spec's scenarios: `[68,70)+[70,72)`
ingests to a single order-2 block at index 68, while `[68,70)+[70,71)`
ingests to separate order-1 and order-0 blocks and no order-2 block. -/
theorem C4_add_region_greedy :
    (∀ s index, add_region s index 0 = some s) ∧
    (∀ s index pc, 0 < pc → pc < 2 ^ 64 →
      min (min (trailing_zeros index) (63 - leading_zeros pc)) MAX_ORDER =
        min (min (trailing_zeros index) (Nat.log2 pc)) MAX_ORDER ∧
      add_region s index pc =
        (free_block s index
            (min (min (trailing_zeros index) (Nat.log2 pc)) MAX_ORDER)).bind
          fun s' =>
            add_region s'
              (index + (1 <<< min (min (trailing_zeros index) (Nat.log2 pc)) MAX_ORDER))
              (pc - (1 <<< min (min (trailing_zeros index) (Nat.log2 pc)) MAX_ORDER))) ∧
    (regionCombined.freeLists 2 = some 68 ∧
      regionCombined.entries 68 = ⟨2, none, none⟩ ∧
      regionCombined.freeLists 0 = none ∧ regionCombined.freeLists 1 = none ∧
      testBit regionCombined 68 = true ∧ testBit regionCombined 69 = false ∧
      testBit regionCombined 70 = false ∧ testBit regionCombined 71 = false) ∧
    (regionSplit.freeLists 1 = some 68 ∧ regionSplit.freeLists 0 = some 70 ∧
      regionSplit.freeLists 2 = none ∧
      (regionSplit.entries 68).order = 1 ∧ (regionSplit.entries 70).order = 0 ∧
      testBit regionSplit 68 = true ∧ testBit regionSplit 70 = true) := by
  refine ⟨fun s index => add_region_go_zero 0 s index, ?_,
    ⟨by decide, by decide, by decide, by decide, by decide, by decide, by decide, by decide⟩,
    ⟨by decide, by decide, by decide, by decide, by decide, by decide, by decide⟩⟩
  intro s index pc h1 h2
  have hlog : 63 - leading_zeros pc = Nat.log2 pc := count_order_eq_log2 h1 h2
  refine ⟨by rw [hlog], ?_⟩
  rw [← hlog]
  obtain ⟨a, rfl⟩ : ∃ a, pc = a + 1 := ⟨pc - 1, by omega⟩
  rw [show add_region s index (a + 1) = add_region_go (a + 1) s index (a + 1) from rfl,
    add_region_go_succ, if_neg (by omega : ¬ a + 1 = 0)]
  cases hfb : free_block s index
      (min (min (trailing_zeros index) (63 - leading_zeros (a + 1))) MAX_ORDER) with
  | none => rfl
  | some s' =>
      show add_region_go a s' _ _ = add_region_go (a + 1 - _) s' _ _
      have hpow : 1 ≤ 1 <<< min (min (trailing_zeros index) (63 - leading_zeros (a + 1))) MAX_ORDER := by
        rw [Nat.one_shiftLeft]
        exact Nat.one_le_two_pow
      exact add_region_go_fuel a _ s' _ _ (by omega) (by omega)

/-- Witness for C4: one greedy step on a 2-page run at index 68. -/
theorem C4_add_region_greedy_witness :
    (0 : Nat) < 2 ∧ (2 : Nat) < 2 ^ 64 ∧
    (min (min (trailing_zeros 68) (63 - leading_zeros 2)) MAX_ORDER =
        min (min (trailing_zeros 68) (Nat.log2 2)) MAX_ORDER ∧
      add_region initState 68 2 =
        (free_block initState 68
            (min (min (trailing_zeros 68) (Nat.log2 2)) MAX_ORDER)).bind
          fun s' =>
            add_region s'
              (68 + (1 <<< min (min (trailing_zeros 68) (Nat.log2 2)) MAX_ORDER))
              (2 - (1 <<< min (min (trailing_zeros 68) (Nat.log2 2)) MAX_ORDER))) :=
  ⟨by decide, by decide,
    C4_add_region_greedy.2.1 initState 68 2 (by decide) (by decide)⟩

/-! ## C5: the allocator state invariant

The allocator state is abstracted by the per-order lists of free block
indices `L : Nat → List Nat` (front first).  `Seg` says that the
`FreeEntry` storage realises such a list as a doubly-linked chain;
`Inv L s` is the full representation invariant relating `s` to `L`. -/

/-- The pointer a chain node's `next` field must hold when the rest of
the chain is `l` and the successor of the whole segment is `nx`. -/
def segNext (l : List Nat) (nx : Option Nat) : Option Nat :=
  match l with
  | [] => nx
  | j :: _ => some j

/-- `Seg ent o pr l nx`: the indices `l` form a doubly-linked chain of
order-`o` entries in storage `ent`, the first node's `prev` being `pr`
and the last node's `next` being `nx`. -/
def Seg (ent : Nat → FreeEntry) (o : Nat) : Option Nat → List Nat → Option Nat → Prop
  | _, [], _ => True
  | pr, i :: rest, nx =>
      (ent i).order = o ∧ (ent i).prev = pr ∧ (ent i).next = segNext rest nx ∧
        Seg ent o (some i) rest nx

/-- `x` is covered by some free block recorded in `L`. -/
def covers (L : Nat → List Nat) (x : Nat) : Prop :=
  ∃ o i, i ∈ L o ∧ i ≤ x ∧ x < i + 2 ^ o

/-- The representation invariant of the allocator state: each
`free_lists[o]` heads a doubly-linked chain of the order-`o` free-block
indices `L o`; the bitmap bit of an index is set iff that index occurs
in some list; indices are globally distinct, aligned, bounded by the
`u64` index space, and the recorded blocks are pairwise disjoint as page
ranges. -/
structure Inv (L : Nat → List Nat) (s : BuddyState) : Prop where
  heads : ∀ o, s.freeLists o = (L o).head?
  chains : ∀ o, Seg s.entries o none (L o) none
  highNil : ∀ o, MAX_ORDER < o → L o = []
  nodup : ∀ o, (L o).Nodup
  cross : ∀ o1 o2 i, i ∈ L o1 → i ∈ L o2 → o1 = o2
  bits : ∀ i, testBit s i = true ↔ ∃ o, i ∈ L o
  aligned : ∀ o i, i ∈ L o → 2 ^ o ∣ i
  bounded : ∀ o i, i ∈ L o → i + 2 ^ o ≤ 2 ^ 64
  ranges : ∀ o1 o2 i1 i2, i1 ∈ L o1 → i2 ∈ L o2 → ¬(i1 = i2 ∧ o1 = o2) →
    i1 + 2 ^ o1 ≤ i2 ∨ i2 + 2 ^ o2 ≤ i1

/-- The invariant exactly as the claim states it: a bitmap bit at index
`i` is set iff a `FreeEntry` is linked into `free_lists[o]` at index `i`
for exactly one order `o` (the order recorded in the entry, which is
what the chain condition enforces), and every free block of order `o`
has its index aligned to `2^o`. -/
def ClaimedInv (s : BuddyState) : Prop :=
  ∃ L : Nat → List Nat,
    (∀ o, s.freeLists o = (L o).head?) ∧
    (∀ o, Seg s.entries o none (L o) none) ∧
    (∀ o, MAX_ORDER < o → L o = []) ∧
    (∀ i, testBit s i = true ↔ ∃! o, i ∈ L o) ∧
    (∀ o i, i ∈ L o → 2 ^ o ∣ i)

/-! ### Small update and bitmap lemmas -/

lemma updFn_self {α : Type} (f : Nat → α) (i : Nat) (v : α) : updFn f i v i = v := by
  simp [updFn]

lemma updFn_ne {α : Type} (f : Nat → α) (i : Nat) (v : α) {j : Nat} (h : j ≠ i) :
    updFn f i v j = f j := by
  simp [updFn, h]

lemma two_pow_ne_zero (n : Nat) : 2 ^ n ≠ 0 :=
  (Nat.pos_pow_of_pos n (by norm_num)).ne'

lemma testBit_eq_testBit (s : BuddyState) (i : Nat) :
    testBit s i = (s.buddyMap (i / 64)).testBit (i % 64) := by
  unfold testBit
  rw [Nat.one_shiftLeft, Nat.and_two_pow]
  cases h : (s.buddyMap (i / 64)).testBit (i % 64) <;> simp [h, two_pow_ne_zero]

lemma div_mod_inj {i j : Nat} (hdiv : i / 64 = j / 64) (hmod : i % 64 = j % 64) :
    i = j := by
  omega

lemma testBit_setBit_self (s : BuddyState) (i : Nat) :
    testBit (setBit s i) i = true := by
  rw [testBit_eq_testBit]
  show ((updFn s.buddyMap (i / 64) (s.buddyMap (i / 64) ||| (1 <<< (i % 64)))) (i / 64)).testBit (i % 64) = true
  rw [updFn_self, Nat.one_shiftLeft, Nat.testBit_or, Nat.testBit_two_pow_self]
  simp

lemma testBit_setBit_ne (s : BuddyState) (i : Nat) {j : Nat} (h : j ≠ i) :
    testBit (setBit s i) j = testBit s j := by
  rw [testBit_eq_testBit, testBit_eq_testBit]
  show ((updFn s.buddyMap (i / 64) (s.buddyMap (i / 64) ||| (1 <<< (i % 64)))) (j / 64)).testBit (j % 64) = _
  by_cases hw : j / 64 = i / 64
  · rw [hw, updFn_self, Nat.one_shiftLeft, Nat.testBit_or]
    have hb : i % 64 ≠ j % 64 := fun hc => h (div_mod_inj hw hc.symm)
    rw [Nat.testBit_two_pow_of_ne hb]
    simp [hw]
  · rw [updFn_ne _ _ _ hw]

lemma testBit_clearBit_self (s : BuddyState) (i : Nat) :
    testBit (clearBit s i) i = false := by
  rw [testBit_eq_testBit]
  show ((updFn s.buddyMap (i / 64) (s.buddyMap (i / 64) &&& ((1 <<< (i % 64)) ^^^ (2 ^ 64 - 1)))) (i / 64)).testBit (i % 64) = false
  rw [updFn_self, Nat.one_shiftLeft, Nat.testBit_and, Nat.testBit_xor,
    Nat.testBit_two_pow_self, Nat.testBit_two_pow_sub_one]
  have : i % 64 < 64 := Nat.mod_lt _ (by norm_num)
  simp [this]

lemma testBit_clearBit_ne (s : BuddyState) (i : Nat) {j : Nat} (h : j ≠ i) :
    testBit (clearBit s i) j = testBit s j := by
  rw [testBit_eq_testBit, testBit_eq_testBit]
  show ((updFn s.buddyMap (i / 64) (s.buddyMap (i / 64) &&& ((1 <<< (i % 64)) ^^^ (2 ^ 64 - 1)))) (j / 64)).testBit (j % 64) = _
  by_cases hw : j / 64 = i / 64
  · rw [hw, updFn_self, Nat.one_shiftLeft, Nat.testBit_and, Nat.testBit_xor,
      Nat.testBit_two_pow_sub_one]
    have hb : i % 64 ≠ j % 64 := fun hc => h (div_mod_inj hw hc.symm)
    have hlt : j % 64 < 64 := Nat.mod_lt _ (by norm_num)
    rw [Nat.testBit_two_pow_of_ne hb]
    simp [hlt, hw]
  · rw [updFn_ne _ _ _ hw]

@[simp] lemma setBit_entries (s : BuddyState) (i : Nat) :
    (setBit s i).entries = s.entries := rfl
@[simp] lemma setBit_freeLists (s : BuddyState) (i : Nat) :
    (setBit s i).freeLists = s.freeLists := rfl
@[simp] lemma clearBit_entries (s : BuddyState) (i : Nat) :
    (clearBit s i).entries = s.entries := rfl
@[simp] lemma clearBit_freeLists (s : BuddyState) (i : Nat) :
    (clearBit s i).freeLists = s.freeLists := rfl
@[simp] lemma writeEntry_buddyMap (s : BuddyState) (i : Nat) (e : FreeEntry) :
    (writeEntry s i e).buddyMap = s.buddyMap := rfl
@[simp] lemma writeEntry_freeLists (s : BuddyState) (i : Nat) (e : FreeEntry) :
    (writeEntry s i e).freeLists = s.freeLists := rfl
@[simp] lemma writeEntry_entries (s : BuddyState) (i : Nat) (e : FreeEntry) :
    (writeEntry s i e).entries = updFn s.entries i e := rfl

lemma testBit_of_buddyMap_eq {s s' : BuddyState} (h : s'.buddyMap = s.buddyMap) (i : Nat) :
    testBit s' i = testBit s i := by
  rw [testBit_eq_testBit, testBit_eq_testBit, h]

/-! ### Shape lemmas for the doubly-linked-list operations -/

lemma pushListEntry_none_eq (s : BuddyState) (o e : Nat) (h : s.freeLists o = none) :
    pushListEntry s o e = { s with freeLists := updFn s.freeLists o (some e) } := by
  unfold pushListEntry
  rw [h]

lemma pushListEntry_some_eq (s : BuddyState) (o e h0 : Nat) (h : s.freeLists o = some h0) :
    pushListEntry s o e =
      { s with
        entries :=
          updFn (updFn s.entries e { s.entries e with next := some h0 }) h0
            { (updFn s.entries e { s.entries e with next := some h0 }) h0 with prev := some e },
        freeLists := updFn s.freeLists o (some e) } := by
  unfold pushListEntry
  rw [h]

lemma removeListEntry_nn_eq (s : BuddyState) (o b : Nat)
    (hp : (s.entries b).prev = none) (hn : (s.entries b).next = none) :
    removeListEntry s o b = { s with freeLists := updFn s.freeLists o none } := by
  simp only [removeListEntry]
  rw [hp, hn]

lemma removeListEntry_ns_eq (s : BuddyState) (o b n : Nat)
    (hp : (s.entries b).prev = none) (hn : (s.entries b).next = some n) :
    removeListEntry s o b =
      { s with
        freeLists := updFn s.freeLists o (some n)
        entries := updFn s.entries n { s.entries n with prev := none } } := by
  simp only [removeListEntry]
  rw [hp, hn]

lemma removeListEntry_sn_eq (s : BuddyState) (o b p : Nat)
    (hp : (s.entries b).prev = some p) (hn : (s.entries b).next = none) :
    removeListEntry s o b =
      { s with entries := updFn s.entries p { s.entries p with next := none } } := by
  simp only [removeListEntry]
  rw [hp, hn]

lemma removeListEntry_ss_eq (s : BuddyState) (o b p n : Nat)
    (hp : (s.entries b).prev = some p) (hn : (s.entries b).next = some n) :
    removeListEntry s o b =
      { s with entries := updFn (updFn s.entries p { s.entries p with next := some n }) n { (updFn s.entries p { s.entries p with next := some n }) n with prev := some p } } := by
  simp only [removeListEntry]
  rw [hp, hn]

lemma popListEntry_none_eq (s : BuddyState) (o : Nat) (h : s.freeLists o = none) :
    popListEntry s o = (none, s) := by
  simp only [popListEntry]
  rw [h]

lemma popListEntry_some_none_eq (s : BuddyState) (o h0 : Nat)
    (h : s.freeLists o = some h0) (hn : (s.entries h0).next = none) :
    popListEntry s o = (some h0, { s with freeLists := updFn s.freeLists o none }) := by
  simp only [popListEntry, h, hn]

lemma popListEntry_some_some_eq (s : BuddyState) (o h0 n : Nat)
    (h : s.freeLists o = some h0) (hn : (s.entries h0).next = some n) :
    popListEntry s o =
      (some h0,
        { s with
          freeLists := updFn s.freeLists o (some n)
          entries := updFn s.entries n { s.entries n with prev := none } }) := by
  simp only [popListEntry, h, hn]

/-! ### Chain lemmas -/

lemma Seg_nil {ent : Nat → FreeEntry} {o : Nat} {pr nx : Option Nat} :
    Seg ent o pr [] nx := trivial

lemma Seg_cons {ent : Nat → FreeEntry} {o : Nat} {pr nx : Option Nat} {a : Nat} {t : List Nat} :
    Seg ent o pr (a :: t) nx ↔
      ((ent a).order = o ∧ (ent a).prev = pr ∧ (ent a).next = segNext t nx ∧
        Seg ent o (some a) t nx) := Iff.rfl

lemma Seg_frame {ent ent' : Nat → FreeEntry} {o : Nat} :
    ∀ {pr : Option Nat} {l : List Nat} {nx : Option Nat},
      (∀ i ∈ l, ent' i = ent i) → Seg ent o pr l nx → Seg ent' o pr l nx := by
  intro pr l
  induction l generalizing pr with
  | nil => intro nx _ _; exact Seg_nil
  | cons a t ih =>
      intro nx hf hseg
      obtain ⟨h1, h2, h3, h4⟩ := Seg_cons.mp hseg
      have ha : ent' a = ent a := hf a (List.mem_cons_self a t)
      exact Seg_cons.mpr ⟨by rw [ha]; exact h1, by rw [ha]; exact h2,
        by rw [ha]; exact h3, ih (fun i hi => hf i (List.mem_cons_of_mem a hi)) h4⟩

lemma Seg_order_mem {ent : Nat → FreeEntry} {o : Nat} :
    ∀ {pr : Option Nat} {l : List Nat} {nx : Option Nat} {i : Nat},
      Seg ent o pr l nx → i ∈ l → (ent i).order = o := by
  intro pr l
  induction l generalizing pr with
  | nil => intro nx i _ hi; cases hi
  | cons a t ih =>
      intro nx i hseg hi
      obtain ⟨h1, _, _, h4⟩ := Seg_cons.mp hseg
      rcases List.mem_cons.mp hi with rfl | hi'
      · exact h1
      · exact ih h4 hi'

/-- The `prev` pointer the segment after `A` must carry: the last element
of `A`, or `pr` when `A` is empty. -/
def lastPr (pr : Option Nat) : List Nat → Option Nat
  | [] => pr
  | a :: A => lastPr (some a) A

lemma lastPr_nil (pr : Option Nat) : lastPr pr [] = pr := rfl

lemma lastPr_cons (pr : Option Nat) (a : Nat) (A : List Nat) :
    lastPr pr (a :: A) = lastPr (some a) A := rfl

lemma segNext_append (A B : List Nat) (nx : Option Nat) :
    segNext (A ++ B) nx = segNext A (segNext B nx) := by
  cases A <;> rfl

lemma Seg_append {ent : Nat → FreeEntry} {o : Nat} {A B : List Nat} {nx : Option Nat} :
    ∀ {pr : Option Nat},
      Seg ent o pr (A ++ B) nx ↔
        (Seg ent o pr A (segNext B nx) ∧ Seg ent o (lastPr pr A) B nx) := by
  induction A with
  | nil =>
      intro pr
      rw [lastPr_nil]
      simp only [List.nil_append]
      exact ⟨fun h => ⟨Seg_nil, h⟩, fun h => h.2⟩
  | cons a A' ih =>
      intro pr
      rw [List.cons_append, Seg_cons, Seg_cons, segNext_append, lastPr_cons]
      rw [ih]
      tauto

lemma mem_updFn_iff {L : Nat → List Nat} {o : Nat} {l' : List Nat} {o' i : Nat} :
    i ∈ updFn L o l' o' ↔ (o' = o ∧ i ∈ l') ∨ (o' ≠ o ∧ i ∈ L o') := by
  unfold updFn
  by_cases h : o' = o <;> simp [h]

lemma interval_disjoint_of_not_covers {L : Nat → List Nat} {e eo : Nat}
    (hnc : ∀ x, e ≤ x → x < e + 2 ^ eo → ¬ covers L x) :
    ∀ o j, j ∈ L o → j + 2 ^ o ≤ e ∨ e + 2 ^ eo ≤ j := by
  intro o j hj
  by_contra hcon
  push_neg at hcon
  obtain ⟨h1, h2⟩ := hcon
  rcases le_total e j with hle | hle
  · exact hnc j hle (by omega)
      ⟨o, j, hj, le_rfl, by have := Nat.one_le_two_pow (n := o); omega⟩
  · exact hnc e le_rfl (by have := Nat.one_le_two_pow (n := eo); omega)
      ⟨o, j, hj, hle, by omega⟩

lemma not_covers_not_mem {L : Nat → List Nat} {e eo : Nat}
    (hnc : ∀ x, e ≤ x → x < e + 2 ^ eo → ¬ covers L x) :
    ∀ o', e ∉ L o' := by
  intro o' he
  exact hnc e le_rfl (by have := Nat.one_le_two_pow (n := eo); omega)
    ⟨o', e, he, le_rfl, by have := Nat.one_le_two_pow (n := o'); omega⟩

/-! ### Pushing a fresh block preserves the invariant -/

/-- The exact state built by the else-branch of `free_block` and by the
split path of `alloc_block`: set the bit, write a fresh `FreeEntry`,
push it to the front of `free_lists[o]`. -/
def pushState (s : BuddyState) (o e : Nat) : BuddyState :=
  pushListEntry (writeEntry (setBit s e) e ⟨o, none, none⟩) o e

lemma pushState_buddyMap (s : BuddyState) (o e : Nat) :
    (pushState s o e).buddyMap = (setBit s e).buddyMap := by
  unfold pushState
  cases hfl : s.freeLists o with
  | none =>
      rw [pushListEntry_none_eq (writeEntry (setBit s e) e ⟨o, none, none⟩) o e hfl]
      rfl
  | some h0 =>
      rw [pushListEntry_some_eq (writeEntry (setBit s e) e ⟨o, none, none⟩) o e h0 hfl]
      rfl

lemma pushState_freeLists (s : BuddyState) (o e : Nat) :
    (pushState s o e).freeLists = updFn s.freeLists o (some e) := by
  unfold pushState
  cases hfl : s.freeLists o with
  | none =>
      rw [pushListEntry_none_eq (writeEntry (setBit s e) e ⟨o, none, none⟩) o e hfl]
      rfl
  | some h0 =>
      rw [pushListEntry_some_eq (writeEntry (setBit s e) e ⟨o, none, none⟩) o e h0 hfl]
      rfl

lemma pushState_entries_ne (s : BuddyState) (o e : Nat) {j : Nat} (hje : j ≠ e)
    (hjh : ∀ h0, s.freeLists o = some h0 → j ≠ h0) :
    (pushState s o e).entries j = s.entries j := by
  unfold pushState
  cases hfl : s.freeLists o with
  | none =>
      rw [pushListEntry_none_eq (writeEntry (setBit s e) e ⟨o, none, none⟩) o e hfl]
      show updFn s.entries e _ j = _
      rw [updFn_ne _ _ _ hje]
  | some h0 =>
      rw [pushListEntry_some_eq (writeEntry (setBit s e) e ⟨o, none, none⟩) o e h0 hfl]
      show updFn (updFn (updFn s.entries e _) e _) h0 _ j = _
      rw [updFn_ne _ _ _ (hjh h0 hfl), updFn_ne _ _ _ hje, updFn_ne _ _ _ hje]

lemma pushState_entries_e_none (s : BuddyState) (o e : Nat)
    (hfl : s.freeLists o = none) :
    (pushState s o e).entries e = ⟨o, none, none⟩ := by
  unfold pushState
  rw [pushListEntry_none_eq (writeEntry (setBit s e) e ⟨o, none, none⟩) o e hfl]
  show updFn s.entries e ⟨o, none, none⟩ e = _
  rw [updFn_self]

lemma pushState_entries_e_some (s : BuddyState) (o e h0 : Nat)
    (hfl : s.freeLists o = some h0) (heh0 : e ≠ h0) :
    (pushState s o e).entries e = ⟨o, some h0, none⟩ := by
  unfold pushState
  rw [pushListEntry_some_eq (writeEntry (setBit s e) e ⟨o, none, none⟩) o e h0 hfl]
  show updFn (updFn (updFn s.entries e ⟨o, none, none⟩) e _) h0 _ e = _
  rw [updFn_ne _ _ _ heh0, updFn_self]
  simp [updFn_self]

lemma pushState_entries_h0_some (s : BuddyState) (o e h0 : Nat)
    (hfl : s.freeLists o = some h0) (heh0 : e ≠ h0) :
    (pushState s o e).entries h0 = { s.entries h0 with prev := some e } := by
  unfold pushState
  rw [pushListEntry_some_eq (writeEntry (setBit s e) e ⟨o, none, none⟩) o e h0 hfl]
  show updFn (updFn (updFn s.entries e ⟨o, none, none⟩) e _) h0 _ h0 = _
  rw [updFn_self]
  simp [updFn_ne _ _ _ (Ne.symm heh0)]

lemma head_mem_of_some {L : Nat → List Nat} {s : BuddyState} (hInv : Inv L s) {o h0 : Nat}
    (hfl : s.freeLists o = some h0) : ∃ t, L o = h0 :: t := by
  have hh := hInv.heads o
  rw [hfl] at hh
  cases hLo : L o with
  | nil =>
      rw [hLo] at hh
      cases hh
  | cons a t =>
      rw [hLo] at hh
      simp only [List.head?_cons, Option.some.injEq] at hh
      exact ⟨t, by rw [hh]⟩

lemma push_inv {L : Nat → List Nat} {s : BuddyState} {o e : Nat}
    (hInv : Inv L s) (ho : o ≤ MAX_ORDER)
    (hbit : testBit s e = false)
    (hal : 2 ^ o ∣ e) (hbd : e + 2 ^ o ≤ 2 ^ 64)
    (hdisj : ∀ o' j, j ∈ L o' → j + 2 ^ o' ≤ e ∨ e + 2 ^ o ≤ j) :
    Inv (updFn L o (e :: L o)) (pushState s o e) := by
  have hfresh : ∀ o', e ∉ L o' := by
    intro o' he
    have hb := (hInv.bits e).mpr ⟨o', he⟩
    rw [hbit] at hb
    cases hb
  have hbm := pushState_buddyMap s o e
  have hfl := pushState_freeLists s o e
  have hmemL : ∀ {o' i}, i ∈ updFn L o (e :: L o) o' →
      (i = e ∧ o' = o) ∨ i ∈ L o' := by
    intro o' i hi
    rcases mem_updFn_iff.mp hi with ⟨rfl, hi'⟩ | ⟨_, hi'⟩
    · rcases List.mem_cons.mp hi' with rfl | hi''
      · exact Or.inl ⟨rfl, rfl⟩
      · exact Or.inr hi''
    · exact Or.inr hi'
  refine ⟨?_, ?_, ?_, ?_, ?_, ?_, ?_, ?_, ?_⟩
  · -- heads
    intro o''
    rw [hfl]
    by_cases h : o'' = o
    · rw [h, updFn_self, updFn_self]
      rfl
    · rw [updFn_ne _ _ _ h, updFn_ne _ _ _ h, hInv.heads o'']
  · -- chains
    intro o''
    by_cases h : o'' = o
    · rw [h, updFn_self]
      cases hLo : L o with
      | nil =>
          have hfl0 : s.freeLists o = none := by
            rw [hInv.heads o, hLo]
            rfl
          refine Seg_cons.mpr ⟨?_, ?_, ?_, Seg_nil⟩
          · rw [pushState_entries_e_none s o e hfl0]
          · rw [pushState_entries_e_none s o e hfl0]
          · rw [pushState_entries_e_none s o e hfl0]
            rfl
      | cons h0 t =>
          have hfl0 : s.freeLists o = some h0 := by
            rw [hInv.heads o, hLo]
            rfl
          have heh0 : e ≠ h0 := by
            intro hc
            exact hfresh o (hc ▸ (hLo ▸ List.mem_cons_self h0 t))
          have hold : Seg s.entries o none (h0 :: t) none := hLo ▸ hInv.chains o
          obtain ⟨ho0, hp0, hn0, hrest⟩ := Seg_cons.mp hold
          have hnodup : (h0 :: t).Nodup := hLo ▸ hInv.nodup o
          have he := pushState_entries_e_some s o e h0 hfl0 heh0
          have hh0 := pushState_entries_h0_some s o e h0 hfl0 heh0
          have ht : ∀ i ∈ t, (pushState s o e).entries i = s.entries i := by
            intro i hi
            apply pushState_entries_ne
            · intro hc
              exact hfresh o (hc ▸ (hLo ▸ List.mem_cons_of_mem h0 hi))
            · intro h0' hfl'
              rw [hfl0] at hfl'
              have hh : h0' = h0 := by
                simpa using hfl'.symm
              rw [hh]
              intro hc
              exact (List.nodup_cons.mp hnodup).1 (hc ▸ hi)
          refine Seg_cons.mpr ⟨?_, ?_, ?_, Seg_cons.mpr ⟨?_, ?_, ?_, Seg_frame ht hrest⟩⟩
          · rw [he]
          · rw [he]
          · rw [he]
            rfl
          · rw [hh0]
            exact ho0
          · rw [hh0]
          · rw [hh0]
            exact hn0
    · rw [updFn_ne _ _ _ h]
      apply Seg_frame _ (hInv.chains o'')
      intro i hi
      apply pushState_entries_ne
      · intro hc
        exact hfresh o'' (hc ▸ hi)
      · intro h0 hfl0 hc
        obtain ⟨t, ht⟩ := head_mem_of_some hInv hfl0
        have hh0 : h0 ∈ L o := by
          rw [ht]
          exact List.mem_cons_self h0 t
        exact h (hInv.cross o'' o i hi (hc ▸ hh0))
  · -- highNil
    intro o'' h''
    have hne : o'' ≠ o := by
      intro hc
      rw [hc] at h''
      omega
    rw [updFn_ne _ _ _ hne]
    exact hInv.highNil o'' h''
  · -- nodup
    intro o''
    by_cases h : o'' = o
    · rw [h, updFn_self]
      exact List.nodup_cons.mpr ⟨hfresh o, hInv.nodup o⟩
    · rw [updFn_ne _ _ _ h]
      exact hInv.nodup o''
  · -- cross
    intro o1 o2 i h1 h2
    rcases hmemL h1 with ⟨rfl, rfl⟩ | h1'
    · rcases hmemL h2 with ⟨_, rfl⟩ | h2'
      · rfl
      · exact absurd h2' (hfresh o2)
    · rcases hmemL h2 with ⟨rfl, rfl⟩ | h2'
      · exact absurd h1' (hfresh o1)
      · exact hInv.cross o1 o2 i h1' h2'
  · -- bits
    intro i
    rw [testBit_of_buddyMap_eq hbm]
    by_cases hie : i = e
    · rw [hie, testBit_setBit_self]
      constructor
      · intro _
        exact ⟨o, by rw [updFn_self]; exact List.mem_cons_self e (L o)⟩
      · intro _
        rfl
    · rw [testBit_setBit_ne _ _ hie]
      rw [hInv.bits i]
      constructor
      · intro ⟨o', hi'⟩
        refine ⟨o', ?_⟩
        by_cases h : o' = o
        · subst h
          rw [updFn_self]
          exact List.mem_cons_of_mem e hi'
        · rw [updFn_ne _ _ _ h]
          exact hi'
      · intro ⟨o', hi'⟩
        rcases hmemL hi' with ⟨rfl, rfl⟩ | h'
        · exact absurd rfl hie
        · exact ⟨o', h'⟩
  · -- aligned
    intro o' i hi
    rcases hmemL hi with ⟨rfl, rfl⟩ | h'
    · exact hal
    · exact hInv.aligned o' i h'
  · -- bounded
    intro o' i hi
    rcases hmemL hi with ⟨rfl, rfl⟩ | h'
    · exact hbd
    · exact hInv.bounded o' i h'
  · -- ranges
    intro o1 o2 i1 i2 h1 h2 hne
    rcases hmemL h1 with ⟨rfl, rfl⟩ | h1'
    · rcases hmemL h2 with ⟨rfl, rfl⟩ | h2'
      · exact absurd ⟨rfl, rfl⟩ hne
      · exact (hdisj o2 i2 h2').symm
    · rcases hmemL h2 with ⟨rfl, rfl⟩ | h2'
      · exact hdisj o1 i1 h1'
      · exact hInv.ranges o1 o2 i1 i2 h1' h2' hne

/-! ### Removing a listed block preserves the invariant -/

lemma removeListEntry_buddyMap (s : BuddyState) (o b : Nat) :
    (removeListEntry s o b).buddyMap = s.buddyMap := by
  simp only [removeListEntry]
  cases (s.entries b).prev <;> cases (s.entries b).next <;> rfl

lemma head?_append_congr {A C D : List Nat} (h : A ≠ []) :
    (A ++ C).head? = (A ++ D).head? := by
  cases A with
  | nil => exact absurd rfl h
  | cons a A' => rfl

lemma lastPr_concat (pr : Option Nat) (A0 : List Nat) (p : Nat) :
    lastPr pr (A0 ++ [p]) = some p := by
  induction A0 generalizing pr with
  | nil => rfl
  | cons a A0' ih => exact ih (some a)

lemma Seg_retarget_last {ent ent' : Nat → FreeEntry} {o : Nat} {A0 : List Nat} {p : Nat}
    {pr nx nx' : Option Nat}
    (hseg : Seg ent o pr (A0 ++ [p]) nx)
    (hp' : ent' p = { ent p with next := nx' })
    (hframe : ∀ i ∈ A0, ent' i = ent i) :
    Seg ent' o pr (A0 ++ [p]) nx' := by
  obtain ⟨h1, h2⟩ := Seg_append.mp hseg
  obtain ⟨hord, hprev, _, _⟩ := Seg_cons.mp h2
  apply Seg_append.mpr
  constructor
  · have : segNext [p] nx = segNext [p] nx' := rfl
    exact Seg_frame hframe (this ▸ h1)
  · refine Seg_cons.mpr ⟨?_, ?_, ?_, Seg_nil⟩
    · rw [hp']
      exact hord
    · rw [hp']
      exact hprev
    · rw [hp']
      rfl

lemma remove_inv {L : Nat → List Nat} {s : BuddyState} {o b : Nat} {A B : List Nat}
    (hInv : Inv L s) (hLo : L o = A ++ b :: B) :
    Inv (updFn L o (A ++ B)) (removeListEntry (clearBit s b) o b) := by
  have hchain : Seg s.entries o none (A ++ b :: B) none := hLo ▸ hInv.chains o
  obtain ⟨hA, hbB⟩ := Seg_append.mp hchain
  obtain ⟨hbo, hbp, hbn, hB⟩ := Seg_cons.mp hbB
  have hnd : (A ++ b :: B).Nodup := hLo ▸ hInv.nodup o
  have hnd' : (b :: (A ++ B)).Nodup := List.nodup_middle.mp hnd
  have hbAB : b ∉ A ++ B := (List.nodup_cons.mp hnd').1
  have hndAB : (A ++ B).Nodup := (List.nodup_cons.mp hnd').2
  have hmem_b : b ∈ L o := by
    rw [hLo]
    exact List.mem_append_right A (List.mem_cons_self b B)
  have ho8 : o ≤ MAX_ORDER := by
    by_contra hgt
    push_neg at hgt
    have := hInv.highNil o hgt
    rw [this] at hLo
    cases A <;> cases hLo
  have hmemAB : ∀ {o' i}, i ∈ updFn L o (A ++ B) o' → i ∈ L o' ∧ i ≠ b := by
    intro o' i hi
    rcases mem_updFn_iff.mp hi with ⟨rfl, hi'⟩ | ⟨hne, hi'⟩
    · constructor
      · rw [hLo]
        rcases List.mem_append.mp hi' with h' | h'
        · exact List.mem_append_left _ h'
        · exact List.mem_append_right _ (List.mem_cons_of_mem b h')
      · exact fun hc => hbAB (hc ▸ hi')
    · refine ⟨hi', fun hc => hne ?_⟩
      exact hInv.cross o' o i hi' (show i ∈ L o by rw [hc]; exact hmem_b)
  have hmemAB' : ∀ {o' i}, i ∈ L o' → i ≠ b → i ∈ updFn L o (A ++ B) o' := by
    intro o' i hi hib
    by_cases h : o' = o
    · subst h
      rw [updFn_self]
      rw [hLo] at hi
      rcases List.mem_append.mp hi with h' | h'
      · exact List.mem_append_left _ h'
      · rcases List.mem_cons.mp h' with rfl | h''
        · exact absurd rfl hib
        · exact List.mem_append_right _ h''
    · rw [updFn_ne _ _ _ h]
      exact hi
  have hbm : (removeListEntry (clearBit s b) o b).buddyMap = (clearBit s b).buddyMap :=
    removeListEntry_buddyMap (clearBit s b) o b
  -- fields independent of the concrete removal shape
  have hHighNil : ∀ o', MAX_ORDER < o' → updFn L o (A ++ B) o' = [] := by
    intro o' h'
    have hne : o' ≠ o := by omega
    rw [updFn_ne _ _ _ hne]
    exact hInv.highNil o' h'
  have hNodup : ∀ o', (updFn L o (A ++ B) o').Nodup := by
    intro o'
    by_cases h : o' = o
    · subst h
      rw [updFn_self]
      exact hndAB
    · rw [updFn_ne _ _ _ h]
      exact hInv.nodup o'
  have hCross : ∀ o1 o2 i, i ∈ updFn L o (A ++ B) o1 → i ∈ updFn L o (A ++ B) o2 → o1 = o2 := by
    intro o1 o2 i h1 h2
    exact hInv.cross o1 o2 i (hmemAB h1).1 (hmemAB h2).1
  have hAligned : ∀ o' i, i ∈ updFn L o (A ++ B) o' → 2 ^ o' ∣ i := by
    intro o' i hi
    exact hInv.aligned o' i (hmemAB hi).1
  have hBounded : ∀ o' i, i ∈ updFn L o (A ++ B) o' → i + 2 ^ o' ≤ 2 ^ 64 := by
    intro o' i hi
    exact hInv.bounded o' i (hmemAB hi).1
  have hRanges : ∀ o1 o2 i1 i2, i1 ∈ updFn L o (A ++ B) o1 → i2 ∈ updFn L o (A ++ B) o2 →
      ¬(i1 = i2 ∧ o1 = o2) → i1 + 2 ^ o1 ≤ i2 ∨ i2 + 2 ^ o2 ≤ i1 := by
    intro o1 o2 i1 i2 h1 h2 hne
    exact hInv.ranges o1 o2 i1 i2 (hmemAB h1).1 (hmemAB h2).1 hne
  have hBits : ∀ i, testBit (removeListEntry (clearBit s b) o b) i = true ↔
      ∃ o', i ∈ updFn L o (A ++ B) o' := by
    intro i
    rw [testBit_of_buddyMap_eq hbm]
    by_cases hib : i = b
    · rw [hib, testBit_clearBit_self]
      constructor
      · intro h
        cases h
      · intro ⟨o', hi'⟩
        exact absurd rfl (hmemAB hi').2
    · rw [testBit_clearBit_ne _ _ hib, hInv.bits i]
      constructor
      · intro ⟨o', hi'⟩
        exact ⟨o', hmemAB' hi' hib⟩
      · intro ⟨o', hi'⟩
        exact ⟨o', (hmemAB hi').1⟩
  rcases A.eq_nil_or_concat with rfl | ⟨A0, p, hA0⟩
  · -- b is the head of its list
    have hbp' : (s.entries b).prev = none := hbp
    cases B with
    | nil =>
        rw [removeListEntry_nn_eq (clearBit s b) o b hbp' hbn]
        rw [removeListEntry_nn_eq (clearBit s b) o b hbp' hbn] at hBits
        refine ⟨?_, ?_, hHighNil, hNodup, hCross, hBits, hAligned, hBounded, hRanges⟩
        · intro o''
          show updFn s.freeLists o none o'' = _
          by_cases h : o'' = o
          · rw [h, updFn_self, updFn_self]
            rfl
          · rw [updFn_ne _ _ _ h, updFn_ne _ _ _ h]
            exact hInv.heads o''
        · intro o''
          by_cases h : o'' = o
          · rw [h, updFn_self]
            exact Seg_nil
          · rw [updFn_ne _ _ _ h]
            exact hInv.chains o''
    | cons n B' =>
        rw [removeListEntry_ns_eq (clearBit s b) o b n hbp' hbn]
        rw [removeListEntry_ns_eq (clearBit s b) o b n hbp' hbn] at hBits
        obtain ⟨hno, hnp, hnn, hB'⟩ := Seg_cons.mp hB
        have hnB' : n ∉ B' := by
          have hnd2 : (n :: B').Nodup := List.Nodup.of_append_right hnd'.of_cons
          exact (List.nodup_cons.mp hnd2).1
        refine ⟨?_, ?_, hHighNil, hNodup, hCross, hBits, hAligned, hBounded, hRanges⟩
        · intro o''
          show updFn s.freeLists o (some n) o'' = _
          by_cases h : o'' = o
          · rw [h, updFn_self, updFn_self]
            rfl
          · rw [updFn_ne _ _ _ h, updFn_ne _ _ _ h]
            exact hInv.heads o''
        · intro o''
          by_cases h : o'' = o
          · rw [h, updFn_self]
            show Seg (updFn s.entries n { s.entries n with prev := none }) o none (n :: B') none
            refine Seg_cons.mpr ⟨?_, ?_, ?_, ?_⟩
            · rw [updFn_self]
              exact hno
            · rw [updFn_self]
            · rw [updFn_self]
              exact hnn
            · apply Seg_frame _ hB'
              intro i hi
              exact updFn_ne _ _ _ (fun hc => hnB' (hc ▸ hi))
          · rw [updFn_ne _ _ _ h]
            apply Seg_frame _ (hInv.chains o'')
            intro i hi
            apply updFn_ne
            intro hc
            have hnLo : n ∈ L o := by
              rw [hLo]
              exact List.mem_append_right [] (List.mem_cons_of_mem b (List.mem_cons_self n B'))
            exact h (hInv.cross o'' o i hi (hc ▸ hnLo))
  · -- b has a predecessor p
    rw [List.concat_eq_append] at hA0
    subst hA0
    have hbp' : (s.entries b).prev = some p := by
      rw [hbp, lastPr_concat]
    have hAnd : (A0 ++ [p]).Nodup := List.Nodup.of_append_left hnd
    have hpA0 : p ∉ A0 := by
      have h3 := (List.nodup_append.mp hAnd).2.2
      intro hc
      exact h3 hc (List.mem_cons_self p [])
    have hpLo : p ∈ L o := by
      rw [hLo]
      exact List.mem_append_left _ (List.mem_append_right A0 (List.mem_cons_self p []))
    have hpB : ∀ i ∈ B, p ≠ i := by
      intro i hi hc
      have hdisj := (List.nodup_append.mp hnd).2.2
      exact hdisj (List.mem_append_right A0 (List.mem_cons_self p []))
        (List.mem_cons_of_mem b (by rw [hc]; exact hi))
    cases B with
    | nil =>
        rw [removeListEntry_sn_eq (clearBit s b) o b p hbp' hbn]
        rw [removeListEntry_sn_eq (clearBit s b) o b p hbp' hbn] at hBits
        refine ⟨?_, ?_, hHighNil, hNodup, hCross, hBits, hAligned, hBounded, hRanges⟩
        · intro o''
          show s.freeLists o'' = _
          by_cases h : o'' = o
          · rw [h, updFn_self, hInv.heads o, hLo]
            exact head?_append_congr (by simp)
          · rw [updFn_ne _ _ _ h]
            exact hInv.heads o''
        · intro o''
          by_cases h : o'' = o
          · rw [h, updFn_self, List.append_nil]
            show Seg (updFn s.entries p { s.entries p with next := none }) o none (A0 ++ [p]) none
            apply Seg_retarget_last hA
            · rw [updFn_self]
            · intro i hi
              exact updFn_ne _ _ _ (fun hc => hpA0 (hc ▸ hi))
          · rw [updFn_ne _ _ _ h]
            apply Seg_frame _ (hInv.chains o'')
            intro i hi
            apply updFn_ne
            intro hc
            exact h (hInv.cross o'' o i hi (hc ▸ hpLo))
    | cons n B' =>
        rw [removeListEntry_ss_eq (clearBit s b) o b p n hbp' hbn]
        rw [removeListEntry_ss_eq (clearBit s b) o b p n hbp' hbn] at hBits
        obtain ⟨hno, hnp, hnn, hB'⟩ := Seg_cons.mp hB
        have hpn : p ≠ n := hpB n (List.mem_cons_self n B')
        have hnB' : n ∉ B' := by
          have hnd2 : (n :: B').Nodup := List.Nodup.of_append_right hnd'.of_cons
          exact (List.nodup_cons.mp hnd2).1
        have hnLo : n ∈ L o := by
          rw [hLo]
          exact List.mem_append_right _ (List.mem_cons_of_mem b (List.mem_cons_self n B'))
        have hent' : ∀ j, j ≠ p → j ≠ n →
            (updFn (updFn s.entries p { s.entries p with next := some n }) n
              { (updFn s.entries p { s.entries p with next := some n }) n with prev := some p }) j
              = s.entries j := by
          intro j hjp hjn
          rw [updFn_ne _ _ _ hjn, updFn_ne _ _ _ hjp]
        have hentp :
            (updFn (updFn s.entries p { s.entries p with next := some n }) n
              { (updFn s.entries p { s.entries p with next := some n }) n with prev := some p }) p
              = { s.entries p with next := some n } := by
          rw [updFn_ne _ _ _ hpn, updFn_self]
        have hentn :
            (updFn (updFn s.entries p { s.entries p with next := some n }) n
              { (updFn s.entries p { s.entries p with next := some n }) n with prev := some p }) n
              = { s.entries n with prev := some p } := by
          rw [updFn_self, updFn_ne _ _ _ (Ne.symm hpn)]
        refine ⟨?_, ?_, hHighNil, hNodup, hCross, hBits, hAligned, hBounded, hRanges⟩
        · intro o''
          show s.freeLists o'' = _
          by_cases h : o'' = o
          · rw [h, updFn_self, hInv.heads o, hLo]
            exact head?_append_congr (by simp)
          · rw [updFn_ne _ _ _ h]
            exact hInv.heads o''
        · intro o''
          by_cases h : o'' = o
          · rw [h, updFn_self]
            show Seg (updFn (updFn s.entries p { s.entries p with next := some n }) n
              { (updFn s.entries p { s.entries p with next := some n }) n with prev := some p })
              o none ((A0 ++ [p]) ++ n :: B') none
            have hABdisj : (A0 ++ [p]).Disjoint (b :: n :: B') :=
              (List.nodup_append.mp hnd).2.2
            apply Seg_append.mpr
            constructor
            · apply Seg_retarget_last hA
              · exact hentp
              · intro i hi
                apply hent'
                · intro hc
                  exact hpA0 (hc ▸ hi)
                · intro hc
                  exact hABdisj (List.mem_append_left [p] hi)
                    (List.mem_cons_of_mem b (by rw [hc]; exact List.mem_cons_self n B'))
            · rw [lastPr_concat]
              refine Seg_cons.mpr ⟨?_, ?_, ?_, ?_⟩
              · rw [hentn]
                exact hno
              · rw [hentn]
              · rw [hentn]
                exact hnn
              · apply Seg_frame _ hB'
                intro i hi
                apply hent'
                · intro hc
                  exact (hpB i (List.mem_cons_of_mem n hi)) hc.symm
                · intro hc
                  exact hnB' (hc ▸ hi)
          · rw [updFn_ne _ _ _ h]
            apply Seg_frame _ (hInv.chains o'')
            intro i hi
            apply hent'
            · intro hc
              exact h (hInv.cross o'' o i hi (hc ▸ hpLo))
            · intro hc
              exact h (hInv.cross o'' o i hi (hc ▸ hnLo))

/-! ### Popping the front of a list preserves the invariant -/

lemma front_pop_inv {L : Nat → List Nat} {s : BuddyState} {o h0 : Nat} {t : List Nat}
    (hInv : Inv L s) (hLo : L o = h0 :: t) :
    (popListEntry s o).1 = some h0 ∧
      Inv (updFn L o t) (clearBit (popListEntry s o).2 h0) := by
  have hfl : s.freeLists o = some h0 := by
    rw [hInv.heads o, hLo]
    rfl
  have hchain : Seg s.entries o none (h0 :: t) none := hLo ▸ hInv.chains o
  obtain ⟨h0o, h0p, h0n, ht⟩ := Seg_cons.mp hchain
  have hnd : (h0 :: t).Nodup := hLo ▸ hInv.nodup o
  have h0t : h0 ∉ t := (List.nodup_cons.mp hnd).1
  have hmem_h0 : h0 ∈ L o := by
    rw [hLo]
    exact List.mem_cons_self h0 t
  have hmemT : ∀ {o' i}, i ∈ updFn L o t o' → i ∈ L o' ∧ i ≠ h0 := by
    intro o' i hi
    rcases mem_updFn_iff.mp hi with ⟨rfl, hi'⟩ | ⟨hne, hi'⟩
    · exact ⟨by rw [hLo]; exact List.mem_cons_of_mem h0 hi', fun hc => h0t (hc ▸ hi')⟩
    · refine ⟨hi', fun hc => hne ?_⟩
      exact hInv.cross o' o i hi' (show i ∈ L o by rw [hc]; exact hmem_h0)
  have hmemT' : ∀ {o' i}, i ∈ L o' → i ≠ h0 → i ∈ updFn L o t o' := by
    intro o' i hi hih
    by_cases h : o' = o
    · subst h
      rw [updFn_self]
      rw [hLo] at hi
      rcases List.mem_cons.mp hi with rfl | hi'
      · exact absurd rfl hih
      · exact hi'
    · rw [updFn_ne _ _ _ h]
      exact hi
  have hHighNil : ∀ o', MAX_ORDER < o' → updFn L o t o' = [] := by
    intro o' h'
    have ho8 : o ≤ MAX_ORDER := by
      by_contra hgt
      push_neg at hgt
      have := hInv.highNil o hgt
      rw [this] at hLo
      cases hLo
    have hne : o' ≠ o := by omega
    rw [updFn_ne _ _ _ hne]
    exact hInv.highNil o' h'
  have hNodup : ∀ o', (updFn L o t o').Nodup := by
    intro o'
    by_cases h : o' = o
    · subst h
      rw [updFn_self]
      exact (List.nodup_cons.mp hnd).2
    · rw [updFn_ne _ _ _ h]
      exact hInv.nodup o'
  have hCross : ∀ o1 o2 i, i ∈ updFn L o t o1 → i ∈ updFn L o t o2 → o1 = o2 :=
    fun o1 o2 i h1 h2 => hInv.cross o1 o2 i (hmemT h1).1 (hmemT h2).1
  have hAligned : ∀ o' i, i ∈ updFn L o t o' → 2 ^ o' ∣ i :=
    fun o' i hi => hInv.aligned o' i (hmemT hi).1
  have hBounded : ∀ o' i, i ∈ updFn L o t o' → i + 2 ^ o' ≤ 2 ^ 64 :=
    fun o' i hi => hInv.bounded o' i (hmemT hi).1
  have hRanges : ∀ o1 o2 i1 i2, i1 ∈ updFn L o t o1 → i2 ∈ updFn L o t o2 →
      ¬(i1 = i2 ∧ o1 = o2) → i1 + 2 ^ o1 ≤ i2 ∨ i2 + 2 ^ o2 ≤ i1 :=
    fun o1 o2 i1 i2 h1 h2 hne =>
      hInv.ranges o1 o2 i1 i2 (hmemT h1).1 (hmemT h2).1 hne
  have hBitsGen : ∀ (s2 : BuddyState), s2.buddyMap = s.buddyMap →
      ∀ i, testBit (clearBit s2 h0) i = true ↔ ∃ o', i ∈ updFn L o t o' := by
    intro s2 hs2 i
    have hbm2 : (clearBit s2 h0).buddyMap = (clearBit s h0).buddyMap := by
      show updFn s2.buddyMap _ _ = updFn s.buddyMap _ _
      rw [hs2]
    rw [testBit_of_buddyMap_eq hbm2]
    by_cases hih : i = h0
    · rw [hih, testBit_clearBit_self]
      constructor
      · intro h
        cases h
      · intro ⟨o', hi'⟩
        exact absurd rfl (hmemT hi').2
    · rw [testBit_clearBit_ne _ _ hih, hInv.bits i]
      constructor
      · intro ⟨o', hi'⟩
        exact ⟨o', hmemT' hi' hih⟩
      · intro ⟨o', hi'⟩
        exact ⟨o', (hmemT hi').1⟩
  cases t with
  | nil =>
      rw [popListEntry_some_none_eq s o h0 hfl h0n]
      refine ⟨rfl, ?_, ?_, hHighNil, hNodup, hCross, ?_, hAligned, hBounded, hRanges⟩
      · intro o''
        show updFn s.freeLists o none o'' = _
        by_cases h : o'' = o
        · rw [h, updFn_self, updFn_self]
          rfl
        · rw [updFn_ne _ _ _ h, updFn_ne _ _ _ h]
          exact hInv.heads o''
      · intro o''
        by_cases h : o'' = o
        · rw [h, updFn_self]
          exact Seg_nil
        · rw [updFn_ne _ _ _ h]
          exact hInv.chains o''
      · exact hBitsGen _ rfl
  | cons n t' =>
      have h0n' : (s.entries h0).next = some n := h0n
      rw [popListEntry_some_some_eq s o h0 n hfl h0n']
      obtain ⟨hno, hnp, hnn, ht'⟩ := Seg_cons.mp ht
      have hnt' : n ∉ t' := by
        have : (n :: t').Nodup := (List.nodup_cons.mp hnd).2
        exact (List.nodup_cons.mp this).1
      have hnLo : n ∈ L o := by
        rw [hLo]
        exact List.mem_cons_of_mem h0 (List.mem_cons_self n t')
      refine ⟨rfl, ?_, ?_, hHighNil, hNodup, hCross, ?_, hAligned, hBounded, hRanges⟩
      · intro o''
        show updFn s.freeLists o (some n) o'' = _
        by_cases h : o'' = o
        · rw [h, updFn_self, updFn_self]
          rfl
        · rw [updFn_ne _ _ _ h, updFn_ne _ _ _ h]
          exact hInv.heads o''
      · intro o''
        by_cases h : o'' = o
        · rw [h, updFn_self]
          show Seg (updFn s.entries n { s.entries n with prev := none }) o none (n :: t') none
          refine Seg_cons.mpr ⟨?_, ?_, ?_, ?_⟩
          · rw [updFn_self]
            exact hno
          · rw [updFn_self]
          · rw [updFn_self]
            exact hnn
          · apply Seg_frame _ ht'
            intro i hi
            exact updFn_ne _ _ _ (fun hc => hnt' (hc ▸ hi))
        · rw [updFn_ne _ _ _ h]
          apply Seg_frame _ (hInv.chains o'')
          intro i hi
          apply updFn_ne
          intro hc
          exact h (hInv.cross o'' o i hi (hc ▸ hnLo))
      · exact hBitsGen _ rfl

/-! ### Buddy and combined index arithmetic -/

lemma testBit_mul_pow (m o k : Nat) :
    (2 ^ o * m).testBit k = (decide (k ≥ o) && m.testBit (k - o)) := by
  rw [mul_comm, ← Nat.shiftLeft_eq]
  exact Nat.testBit_shiftLeft m

lemma testBit_one_succ (j : Nat) : (1 : Nat).testBit (j + 1) = false := by
  rw [Nat.testBit_succ]
  show Nat.testBit 0 j = false
  exact Nat.zero_testBit j

lemma xor_one_even {m : Nat} (h : m % 2 = 0) : m ^^^ 1 = m + 1 := by
  apply Nat.eq_of_testBit_eq
  intro k
  cases k with
  | zero =>
      rw [Nat.testBit_xor, Nat.testBit_zero, Nat.testBit_zero, Nat.testBit_zero]
      have h1 : (m + 1) % 2 = 1 := by omega
      simp [h, h1]
  | succ j =>
      rw [Nat.testBit_xor, Nat.testBit_succ, Nat.testBit_succ, Nat.testBit_succ]
      have h1 : (1 : Nat) / 2 = 0 := rfl
      have h2 : (m + 1) / 2 = m / 2 := by omega
      rw [h1, h2]
      simp [Nat.zero_testBit]

lemma xor_one_odd {m : Nat} (h : m % 2 = 1) : m ^^^ 1 = m - 1 := by
  apply Nat.eq_of_testBit_eq
  intro k
  cases k with
  | zero =>
      rw [Nat.testBit_xor, Nat.testBit_zero, Nat.testBit_zero, Nat.testBit_zero]
      have h1 : (m - 1) % 2 = 0 := by omega
      simp [h, h1]
  | succ j =>
      rw [Nat.testBit_xor, Nat.testBit_succ, Nat.testBit_succ, Nat.testBit_succ]
      have h1 : (1 : Nat) / 2 = 0 := rfl
      have h2 : (m - 1) / 2 = m / 2 := by omega
      rw [h1, h2]
      simp [Nat.zero_testBit]

lemma xor_pow_eq_mul_xor_one {m o : Nat} :
    (2 ^ o * m) ^^^ (2 ^ o) = 2 ^ o * (m ^^^ 1) := by
  apply Nat.eq_of_testBit_eq
  intro k
  rw [Nat.testBit_xor, testBit_mul_pow, testBit_mul_pow, Nat.testBit_xor]
  rcases Nat.lt_trichotomy k o with hk | hk | hk
  · have h1 : ¬ k ≥ o := by omega
    rw [Nat.testBit_two_pow_of_ne (by omega : o ≠ k)]
    simp [h1]
  · subst hk
    rw [Nat.testBit_two_pow_self]
    simp
  · have h1 : k ≥ o := by omega
    rw [Nat.testBit_two_pow_of_ne (by omega : o ≠ k)]
    obtain ⟨j, hj⟩ : ∃ j, k - o = j + 1 := ⟨k - o - 1, by omega⟩
    rw [hj, testBit_one_succ]
    simp [h1]

/-- The buddy of an aligned even-position block is the block above it. -/
lemma get_buddy_index_even {index o : Nat} (hdvd : 2 ^ o ∣ index)
    (heven : index / 2 ^ o % 2 = 0) :
    get_buddy_index index o = index + 2 ^ o := by
  obtain ⟨m, rfl⟩ := hdvd
  rw [Nat.mul_div_cancel_left m (Nat.pos_pow_of_pos o (by norm_num))] at heven
  unfold get_buddy_index
  rw [Nat.one_shiftLeft, xor_pow_eq_mul_xor_one, xor_one_even heven]
  ring

/-- The buddy of an aligned odd-position block is the block below it. -/
lemma get_buddy_index_odd {index o : Nat} (hdvd : 2 ^ o ∣ index)
    (hodd : index / 2 ^ o % 2 = 1) :
    get_buddy_index index o = index - 2 ^ o := by
  obtain ⟨m, rfl⟩ := hdvd
  rw [Nat.mul_div_cancel_left m (Nat.pos_pow_of_pos o (by norm_num))] at hodd
  unfold get_buddy_index
  rw [Nat.one_shiftLeft, xor_pow_eq_mul_xor_one, xor_one_odd hodd]
  obtain ⟨m', rfl⟩ : ∃ m', m = m' + 1 := ⟨m - 1, by omega⟩
  have h0 : m' + 1 - 1 = m' := by omega
  rw [h0]
  have h1 : 2 ^ o * (m' + 1) = 2 ^ o * m' + 2 ^ o := by ring
  omega

lemma get_combined_index_even {index o : Nat} (hlt : index < 2 ^ 64) (ho : o < 64)
    (hdvd : 2 ^ o ∣ index) (heven : index / 2 ^ o % 2 = 0) :
    get_combined_index index o = index := by
  obtain ⟨m, hm⟩ := hdvd
  have hmeq : index / 2 ^ o = m := by
    rw [hm]
    exact Nat.mul_div_cancel_left m (Nat.pos_pow_of_pos o (by norm_num))
  rw [hmeq] at heven
  unfold get_combined_index
  rw [Nat.one_shiftLeft]
  apply Nat.eq_of_testBit_eq
  intro k
  rw [Nat.testBit_and, Nat.testBit_xor, Nat.testBit_two_pow_sub_one]
  by_cases hko : k = o
  · subst hko
    have hbit : index.testBit k = false := by
      rw [hm, testBit_mul_pow]
      have : k - k = 0 := by omega
      rw [this, Nat.testBit_zero]
      simp [heven]
    simp [hbit]
  · by_cases hk64 : k < 64
    · rw [Nat.testBit_two_pow_of_ne (Ne.symm hko)]
      simp [hk64]
    · have hbit : index.testBit k = false :=
        Nat.testBit_eq_false_of_lt (lt_of_lt_of_le hlt
          (Nat.pow_le_pow_right (by norm_num) (by omega)))
      simp [hbit]

lemma get_combined_index_odd {index o : Nat} (hlt : index < 2 ^ 64) (ho : o < 64)
    (hdvd : 2 ^ o ∣ index) (hodd : index / 2 ^ o % 2 = 1) :
    get_combined_index index o = index - 2 ^ o := by
  obtain ⟨m, hm⟩ := hdvd
  have hmeq : index / 2 ^ o = m := by
    rw [hm]
    exact Nat.mul_div_cancel_left m (Nat.pos_pow_of_pos o (by norm_num))
  rw [hmeq] at hodd
  obtain ⟨j, hj⟩ : ∃ j, m = 2 * j + 1 := ⟨m / 2, by omega⟩
  have hsub : index - 2 ^ o = 2 ^ o * (2 * j) := by
    rw [hm, hj]
    have : 2 ^ o * (2 * j + 1) = 2 ^ o * (2 * j) + 2 ^ o := by ring
    omega
  rw [hsub]
  unfold get_combined_index
  rw [Nat.one_shiftLeft]
  apply Nat.eq_of_testBit_eq
  intro k
  rw [Nat.testBit_and, Nat.testBit_xor, Nat.testBit_two_pow_sub_one, testBit_mul_pow]
  rcases Nat.lt_trichotomy k o with hk | hk | hk
  · have h1 : ¬ k ≥ o := by omega
    have hbit : index.testBit k = false := by
      rw [hm, testBit_mul_pow]
      simp [h1]
    simp [hbit, h1]
  · subst hk
    have hbit2 : index.testBit k = true := by
      rw [hm, testBit_mul_pow]
      have h0 : k - k = 0 := by omega
      rw [h0, Nat.testBit_zero]
      simp [hodd]
    have h2 : (2 * j).testBit (k - k) = false := by
      have h0 : k - k = 0 := by omega
      rw [h0, Nat.testBit_zero]
      have h1 : 2 * j % 2 = 0 := by omega
      simp [h1]
    rw [Nat.testBit_two_pow_self]
    simp [hbit2, h2, ho]
  · have h1 : k ≥ o := by omega
    rw [Nat.testBit_two_pow_of_ne (by omega : o ≠ k)]
    by_cases hk64 : k < 64
    · have hbits : index.testBit k = (2 * j).testBit (k - o) := by
        rw [hm, testBit_mul_pow]
        obtain ⟨d, hd⟩ : ∃ d, k - o = d + 1 := ⟨k - o - 1, by omega⟩
        rw [hd]
        have hm2 : m / 2 = j := by omega
        rw [Nat.testBit_succ, Nat.testBit_succ, hj]
        have hj2 : (2 * j + 1) / 2 = j := by omega
        have hj3 : 2 * j / 2 = j := by omega
        rw [hj2, hj3]
        simp [h1]
      rw [hbits]
      simp [hk64, h1]
    · have hbit : index.testBit k = false :=
        Nat.testBit_eq_false_of_lt (lt_of_lt_of_le hlt
          (Nat.pow_le_pow_right (by norm_num) (by omega)))
      have hbit2 : (2 * j).testBit (k - o) = false := by
        have hlt2 : 2 ^ o * (2 * j) < 2 ^ 64 := by
          have : 2 ^ o * (2 * j) ≤ index := by
            rw [hm, hj]
            exact Nat.mul_le_mul_left _ (by omega)
          omega
        have := Nat.testBit_eq_false_of_lt (lt_of_lt_of_le hlt2
          (Nat.pow_le_pow_right (by norm_num) (by omega : (64 : Nat) ≤ k)))
        rw [testBit_mul_pow] at this
        simpa [h1] using this
      simp [hbit, hbit2]

/-! ### `free_block` preserves the invariant -/

lemma mem_remove {L : Nat → List Nat} {s : BuddyState} {o b : Nat} {A B : List Nat}
    (hInv : Inv L s) (hLo : L o = A ++ b :: B) :
    ∀ {o' i}, i ∈ updFn L o (A ++ B) o' → i ∈ L o' ∧ i ≠ b := by
  have hnd : (A ++ b :: B).Nodup := hLo ▸ hInv.nodup o
  have hnd' : (b :: (A ++ B)).Nodup := List.nodup_middle.mp hnd
  have hbAB : b ∉ A ++ B := (List.nodup_cons.mp hnd').1
  have hmem_b : b ∈ L o := by
    rw [hLo]
    exact List.mem_append_right A (List.mem_cons_self b B)
  intro o' i hi
  rcases mem_updFn_iff.mp hi with ⟨rfl, hi'⟩ | ⟨hne, hi'⟩
  · constructor
    · rw [hLo]
      rcases List.mem_append.mp hi' with h' | h'
      · exact List.mem_append_left _ h'
      · exact List.mem_append_right _ (List.mem_cons_of_mem b h')
    · exact fun hc => hbAB (hc ▸ hi')
  · refine ⟨hi', fun hc => hne ?_⟩
    exact hInv.cross o' o i hi' (show i ∈ L o by rw [hc]; exact hmem_b)

lemma dvd_succ_of_even {index o : Nat} (hdvd : 2 ^ o ∣ index)
    (he : index / 2 ^ o % 2 = 0) : 2 ^ (o + 1) ∣ index := by
  obtain ⟨m, rfl⟩ := hdvd
  rw [Nat.mul_div_cancel_left m (Nat.pos_pow_of_pos o (by norm_num))] at he
  obtain ⟨k, rfl⟩ : ∃ k, m = 2 * k := ⟨m / 2, by omega⟩
  exact ⟨k, by ring⟩

lemma dvd_succ_of_odd {index o : Nat} (hdvd : 2 ^ o ∣ index)
    (ho : index / 2 ^ o % 2 = 1) : 2 ^ (o + 1) ∣ index - 2 ^ o := by
  obtain ⟨m, rfl⟩ := hdvd
  rw [Nat.mul_div_cancel_left m (Nat.pos_pow_of_pos o (by norm_num))] at ho
  obtain ⟨k, rfl⟩ : ∃ k, m = 2 * k + 1 := ⟨m / 2, by omega⟩
  refine ⟨k, ?_⟩
  have h1 : 2 ^ o * (2 * k + 1) = 2 ^ (o + 1) * k + 2 ^ o := by ring
  omega

lemma pow_le_of_odd {index o : Nat} (hdvd : 2 ^ o ∣ index)
    (ho : index / 2 ^ o % 2 = 1) : 2 ^ o ≤ index := by
  obtain ⟨m, rfl⟩ := hdvd
  rw [Nat.mul_div_cancel_left m (Nat.pos_pow_of_pos o (by norm_num))] at ho
  have h1 : 1 ≤ m := by omega
  calc 2 ^ o = 2 ^ o * 1 := by ring
    _ ≤ 2 ^ o * m := Nat.mul_le_mul_left _ h1

lemma free_block_go_inv :
    ∀ fuel order s L index, order ≤ MAX_ORDER → MAX_ORDER + 1 - order ≤ fuel →
      Inv L s → 2 ^ order ∣ index → index + 2 ^ order ≤ 2 ^ 64 →
      (∀ x, index ≤ x → x < index + 2 ^ order → ¬ covers L x) →
      ∃ s' L', free_block_go fuel s index order = some s' ∧ Inv L' s' ∧
        (∀ x, covers L' x → covers L x ∨ (index ≤ x ∧ x < index + 2 ^ order)) := by
  intro fuel
  induction fuel with
  | zero =>
      intro order s L index ho hf
      exfalso
      unfold MAX_ORDER at *
      omega
  | succ fuel ih =>
      intro order s L index ho hf hInv hdvd hbd hnc
      have hgt : ¬ order > MAX_ORDER := by omega
      simp only [free_block_go]
      rw [if_neg hgt]
      by_cases hm : order < MAX_ORDER ∧
          testBit s (get_buddy_index index order) = true ∧
          (s.entries (get_buddy_index index order)).order = order
      · -- merge case
        rw [if_pos hm]
        obtain ⟨horder, hbbit, hbord⟩ := hm
        set b := get_buddy_index index order with hbdef
        -- the buddy is listed at exactly `order`
        obtain ⟨o', hbmem'⟩ := (hInv.bits b).mp hbbit
        have ho' : o' = order := by
          have := Seg_order_mem (hInv.chains o') hbmem'
          rw [this] at hbord
          exact hbord
        rw [ho'] at hbmem'
        obtain ⟨A, B, hLo⟩ := List.append_of_mem hbmem'
        have hInv2 := remove_inv hInv hLo
        have hpos : (0 : Nat) < 2 ^ order := Nat.pos_pow_of_pos order (by norm_num)
        have hpos1 : (0 : Nat) < 2 ^ (order + 1) := Nat.pos_pow_of_pos _ (by norm_num)
        have hps : (2 : Nat) ^ (order + 1) = 2 ^ order + 2 ^ order := by ring
        have hilt : index < 2 ^ 64 := by omega
        have ho64 : order < 64 := by
          unfold MAX_ORDER at ho
          omega
        have hbb := hInv.bounded order b hbmem'
        have hcovb : ∀ x, b ≤ x → x < b + 2 ^ order → covers L x :=
          fun x h1 h2 => ⟨order, b, hbmem', h1, h2⟩
        -- coverage of the removed-list state is bounded by the old one
        have hcov1 : ∀ x, covers (updFn L order (A ++ B)) x → covers L x := by
          intro x ⟨oc, j, hj, hj1, hj2⟩
          exact ⟨oc, j, (mem_remove hInv hLo hj).1, hj1, hj2⟩
        -- points of the buddy block are not covered after its removal
        have hncb : ∀ x, b ≤ x → x < b + 2 ^ order →
            ¬ covers (updFn L order (A ++ B)) x := by
          intro x h1 h2 ⟨oc, j, hj, hj1, hj2⟩
          obtain ⟨hjL, hjb⟩ := mem_remove hInv hLo hj
          have := hInv.ranges oc order j b hjL hbmem' (fun hc => hjb hc.1)
          omega
        rcases Nat.mod_two_eq_zero_or_one (index / 2 ^ order) with hpar | hpar
        · -- even position: buddy above, combined = index
          have hbeq : b = index + 2 ^ order := get_buddy_index_even hdvd hpar
          have hceq : get_combined_index index order = index :=
            get_combined_index_even hilt ho64 hdvd hpar
          have hdvd2 : 2 ^ (order + 1) ∣ index := dvd_succ_of_even hdvd hpar
          have hbd2 : index + 2 ^ (order + 1) ≤ 2 ^ 64 := by
            rw [hps]
            omega
        -- coverage precondition for the recursive call
          have hnc2 : ∀ x, index ≤ x → x < index + 2 ^ (order + 1) →
              ¬ covers (updFn L order (A ++ B)) x := by
            intro x h1 h2
            by_cases hx : x < index + 2 ^ order
            · intro hc
              exact hnc x h1 hx (hcov1 x hc)
            · apply hncb
              · omega
              · omega
          obtain ⟨s', L'', heq, hInv', hcov'⟩ :=
            ih (order + 1) _ (updFn L order (A ++ B)) index
              (by omega) (by omega) hInv2 hdvd2 hbd2 hnc2
          refine ⟨s', L'', ?_, hInv', ?_⟩
          · rw [hceq]
            exact heq
          · intro x hx
            rcases hcov' x hx with hx' | hx'
            · rcases (show covers L x ∨ (index ≤ x ∧ x < index + 2 ^ order) from
                Or.inl (hcov1 x hx')) with h | h
              · exact Or.inl h
              · exact Or.inr h
            · by_cases hxl : x < index + 2 ^ order
              · exact Or.inr ⟨hx'.1, hxl⟩
              · refine Or.inl (hcovb x ?_ ?_)
                · omega
                · omega
        · -- odd position: buddy below, combined = buddy
          have hble : 2 ^ order ≤ index := pow_le_of_odd hdvd hpar
          have hbeq : b = index - 2 ^ order := get_buddy_index_odd hdvd hpar
          have hceq : get_combined_index index order = index - 2 ^ order :=
            get_combined_index_odd hilt ho64 hdvd hpar
          have hdvd2 : 2 ^ (order + 1) ∣ index - 2 ^ order := dvd_succ_of_odd hdvd hpar
          have hbd2 : index - 2 ^ order + 2 ^ (order + 1) ≤ 2 ^ 64 := by
            rw [hps]
            omega
          have hnc2 : ∀ x, index - 2 ^ order ≤ x → x < index - 2 ^ order + 2 ^ (order + 1) →
              ¬ covers (updFn L order (A ++ B)) x := by
            intro x h1 h2
            by_cases hx : x < index
            · apply hncb
              · omega
              · omega
            · intro hc
              refine hnc x (by omega) (by omega) (hcov1 x hc)
          obtain ⟨s', L'', heq, hInv', hcov'⟩ :=
            ih (order + 1) _ (updFn L order (A ++ B)) (index - 2 ^ order)
              (by omega) (by omega) hInv2 hdvd2 hbd2 hnc2
          refine ⟨s', L'', ?_, hInv', ?_⟩
          · rw [hceq]
            exact heq
          · intro x hx
            rcases hcov' x hx with hx' | hx'
            · exact Or.inl (hcov1 x hx')
            · by_cases hxl : x < index
              · refine Or.inl (hcovb x ?_ ?_)
                · omega
                · omega
              · refine Or.inr ⟨by omega, by omega⟩
      · -- push case
        rw [if_neg hm]
        have hbit : testBit s index = false := by
          cases hcb : testBit s index
          · rfl
          · obtain ⟨o', hmem⟩ := (hInv.bits index).mp hcb
            exact absurd hmem (not_covers_not_mem hnc o')
        have hdisj := interval_disjoint_of_not_covers hnc
        have hInv' := push_inv hInv ho hbit hdvd hbd hdisj
        refine ⟨_, updFn L order (index :: L order), rfl, hInv', ?_⟩
        intro x ⟨oc, j, hj, hj1, hj2⟩
        rcases mem_updFn_iff.mp hj with ⟨rfl, hj'⟩ | ⟨_, hj'⟩
        · rcases List.mem_cons.mp hj' with rfl | hj''
          · exact Or.inr ⟨hj1, hj2⟩
          · exact Or.inl ⟨oc, j, hj'', hj1, hj2⟩
        · exact Or.inl ⟨oc, j, hj', hj1, hj2⟩

/-! ### `alloc_block` preserves the invariant -/

lemma alloc_block_go_inv :
    ∀ fuel order s L, order ≤ MAX_ORDER → MAX_ORDER + 1 - order ≤ fuel →
      Inv L s →
      ∀ i s', alloc_block_go fuel s order = some (i, s') →
        ∃ L', Inv L' s' ∧ 2 ^ order ∣ i ∧ i + 2 ^ order ≤ 2 ^ 64 ∧
          (∀ x, i ≤ x → x < i + 2 ^ order → covers L x) ∧
          (∀ x, i ≤ x → x < i + 2 ^ order → ¬ covers L' x) ∧
          (∀ x, covers L' x → covers L x) := by
  intro fuel
  induction fuel with
  | zero =>
      intro order s L ho hf
      exfalso
      unfold MAX_ORDER at *
      omega
  | succ fuel ih =>
      intro order s L ho hf hInv i s' halloc
      have hgt : ¬ order > MAX_ORDER := by omega
      simp only [alloc_block_go] at halloc
      rw [if_neg hgt] at halloc
      have hpos : (0 : Nat) < 2 ^ order := Nat.pos_pow_of_pos order (by norm_num)
      cases hLo : L order with
      | cons h0 t =>
          obtain ⟨hp1, hInvPop⟩ := front_pop_inv hInv hLo
          rw [show popListEntry s order = (some h0, (popListEntry s order).2) from by
            rw [← hp1]] at halloc
          have halloc' : some (h0, clearBit (popListEntry s order).2 h0) = some (i, s') :=
            halloc
          injection halloc' with hpair
          injection hpair with h1 h2
          subst h1
          subst h2
          have hmem : h0 ∈ L order := by
            rw [hLo]
            exact List.mem_cons_self h0 t
          have hLo' : L order = [] ++ h0 :: t := hLo
          refine ⟨updFn L order t, hInvPop, hInv.aligned order h0 hmem,
            hInv.bounded order h0 hmem, ?_, ?_, ?_⟩
          · intro x hx1 hx2
            exact ⟨order, h0, hmem, hx1, hx2⟩
          · intro x hx1 hx2 ⟨oc, j, hj, hj1, hj2⟩
            obtain ⟨hjL, hji⟩ := mem_remove hInv hLo' hj
            have := hInv.ranges oc order j h0 hjL hmem (fun hc => hji hc.1)
            omega
          · intro x ⟨oc, j, hj, hj1, hj2⟩
            exact ⟨oc, j, (mem_remove hInv hLo' hj).1, hj1, hj2⟩
      | nil =>
          have hfl : s.freeLists order = none := by
            rw [hInv.heads order, hLo]
            rfl
          rw [popListEntry_none_eq s order hfl] at halloc
          have halloc' : (if order = MAX_ORDER then (none : Option (Nat × BuddyState))
              else
                match alloc_block_go fuel s (order + 1) with
                | none => none
                | some (higher_block, s1) =>
                    some (higher_block,
                      pushListEntry
                        (writeEntry (setBit s1 (get_buddy_index higher_block order))
                          (get_buddy_index higher_block order) ⟨order, none, none⟩)
                        order (get_buddy_index higher_block order))) =
              some (i, s') := halloc
          by_cases hmax : order = MAX_ORDER
          · rw [if_pos hmax] at halloc'
            cases halloc'
          · rw [if_neg hmax] at halloc'
            cases halloc2 : alloc_block_go fuel s (order + 1) with
            | none =>
                rw [halloc2] at halloc'
                cases halloc'
            | some p =>
                obtain ⟨hb, s1⟩ := p
                rw [halloc2] at halloc'
                have halloc'' :
                    some (hb,
                      pushListEntry
                        (writeEntry (setBit s1 (get_buddy_index hb order))
                          (get_buddy_index hb order) ⟨order, none, none⟩)
                        order (get_buddy_index hb order)) = some (i, s') :=
                  halloc'
                injection halloc'' with hpair
                injection hpair with h1 h2
                subst h1
                obtain ⟨L1, hInv1, hdvd2, hbd2, hwascov, hfresh1, hcovsub⟩ :=
                  ih (order + 1) s L (by omega) (by omega) hInv hb s1 halloc2
                have hps : (2 : Nat) ^ (order + 1) = 2 ^ order + 2 ^ order := by ring
                have hdvd : 2 ^ order ∣ hb :=
                  dvd_trans ⟨2, by ring⟩ hdvd2
                have hpar : hb / 2 ^ order % 2 = 0 := by
                  obtain ⟨k, rfl⟩ := hdvd2
                  have hk : 2 ^ (order + 1) * k = 2 ^ order * (2 * k) := by ring
                  rw [hk, Nat.mul_div_cancel_left _ hpos]
                  omega
                have hbeq : get_buddy_index hb order = hb + 2 ^ order :=
                  get_buddy_index_even hdvd hpar
                have hbit1 : testBit s1 (get_buddy_index hb order) = false := by
                  cases hcb : testBit s1 (get_buddy_index hb order)
                  · rfl
                  · obtain ⟨oc, hmem⟩ := (hInv1.bits _).mp hcb
                    exfalso
                    refine hfresh1 (get_buddy_index hb order) ?_ ?_
                        ⟨oc, _, hmem, le_rfl, by have := Nat.one_le_two_pow (n := oc); omega⟩
                    · rw [hbeq]
                      omega
                    · rw [hbeq, hps]
                      omega
                have hal : 2 ^ order ∣ get_buddy_index hb order := by
                  rw [hbeq]
                  exact Nat.dvd_add hdvd dvd_rfl
                have hbdp : get_buddy_index hb order + 2 ^ order ≤ 2 ^ 64 := by
                  rw [hbeq]
                  omega
                have hdisj : ∀ oc j, j ∈ L1 oc →
                    j + 2 ^ oc ≤ get_buddy_index hb order ∨
                      get_buddy_index hb order + 2 ^ order ≤ j := by
                  apply interval_disjoint_of_not_covers
                  intro x hx1 hx2
                  rw [hbeq] at hx1 hx2
                  refine hfresh1 x (by omega) (by omega)
                have hInv' := push_inv hInv1 ho hbit1 hal hbdp hdisj
                rw [← h2]
                refine ⟨_, hInv', hdvd, by omega, ?_, ?_, ?_⟩
                · intro x hx1 hx2
                  exact hwascov x hx1 (by omega)
                · intro x hx1 hx2 ⟨oc, j, hj, hj1, hj2⟩
                  rcases mem_updFn_iff.mp hj with ⟨rfl, hj'⟩ | ⟨_, hj'⟩
                  · rcases List.mem_cons.mp hj' with rfl | hj''
                    · rw [hbeq] at hj1
                      omega
                    · exact hfresh1 x hx1 (by omega) ⟨oc, j, hj'', hj1, hj2⟩
                  · exact hfresh1 x hx1 (by omega) ⟨oc, j, hj', hj1, hj2⟩
                · intro x ⟨oc, j, hj, hj1, hj2⟩
                  rcases mem_updFn_iff.mp hj with ⟨rfl, hj'⟩ | ⟨_, hj'⟩
                  · rcases List.mem_cons.mp hj' with rfl | hj''
                    · rw [hbeq] at hj1 hj2
                      exact hwascov x (by omega) (by omega)
                    · exact hcovsub x ⟨oc, j, hj'', hj1, hj2⟩
                  · exact hcovsub x ⟨oc, j, hj', hj1, hj2⟩

/-- Every value is divisible by two to its trailing-zero count. -/
lemma ctzAux_dvd : ∀ fuel n, 2 ^ ctzAux fuel n ∣ n := by
  intro fuel
  induction fuel with
  | zero =>
      intro n
      simp [ctzAux]
  | succ fuel ih =>
      intro n
      by_cases h : n % 2 = 1
      · simp [ctzAux, h]
      · simp only [ctzAux]
        rw [if_neg h]
        obtain ⟨k, hk⟩ := ih (n / 2)
        have hn : n = 2 * (n / 2) := by omega
        have hcalc : n = 2 ^ ctzAux fuel (n / 2) * 2 * k := by
          calc n = 2 * (n / 2) := hn
          _ = 2 * (2 ^ ctzAux fuel (n / 2) * k) := by rw [← hk]
          _ = 2 ^ ctzAux fuel (n / 2) * 2 * k := by ring
        exact ⟨k, by rw [pow_succ]; exact hcalc⟩

/-- `add_region`'s loop preserves the representation invariant: starting
from an invariant state whose free blocks avoid the pages
`[index, index + page_count)`, the loop succeeds and the resulting state
satisfies the invariant, every free block lying in the old coverage or in
the added range. -/
lemma add_region_go_inv :
    ∀ fuel page_count s L index, page_count ≤ fuel → page_count < 2 ^ 64 →
      Inv L s → index + page_count ≤ 2 ^ 64 →
      (∀ x, index ≤ x → x < index + page_count → ¬ covers L x) →
      ∃ s' L', add_region_go fuel s index page_count = some s' ∧ Inv L' s' ∧
        (∀ x, covers L' x → covers L x ∨ (index ≤ x ∧ x < index + page_count)) := by
  intro fuel
  induction fuel with
  | zero =>
      intro page_count s L index hfc hpc64 hInv hbd hfresh
      obtain rfl : page_count = 0 := by omega
      exact ⟨s, L, add_region_go_zero 0 s index, hInv, fun x hc => Or.inl hc⟩
  | succ fuel ih =>
      intro page_count s L index hfc hpc64 hInv hbd hfresh
      by_cases h0 : page_count = 0
      · subst h0
        exact ⟨s, L, add_region_go_zero (fuel + 1) s index, hInv, fun x hc => Or.inl hc⟩
      · have hpc1 : 1 ≤ page_count := Nat.one_le_iff_ne_zero.mpr h0
        obtain ⟨hs1, hs64, hlow, hhigh⟩ := size_bounds hpc1 hpc64
        set o := min (min (trailing_zeros index) (63 - leading_zeros page_count))
          MAX_ORDER with ho
        have hord1 : (0 : Nat) < 2 ^ o := Nat.pos_pow_of_pos _ (by norm_num)
        have hoM : o ≤ MAX_ORDER := min_le_right _ _
        have hdvd : 2 ^ o ∣ index := by
          refine dvd_trans (pow_dvd_pow 2 ?_) (ctzAux_dvd 64 index)
          exact le_trans (min_le_left _ _) (min_le_left _ _)
        have hle_pc : 2 ^ o ≤ page_count := by
          refine le_trans (Nat.pow_le_pow_right (by norm_num) ?_) hlow
          have h1 : o ≤ 63 - leading_zeros page_count :=
            le_trans (min_le_left _ _) (min_le_right _ _)
          unfold leading_zeros at h1
          omega
        obtain ⟨s1, L1, hfb, hInv1, hcov1⟩ :=
          free_block_go_inv (MAX_ORDER + 1) o s L index hoM (by omega) hInv hdvd
            (by omega) (fun x hx1 hx2 => hfresh x hx1 (by omega))
        have hfb' : free_block s index o = some s1 := hfb
        have hfresh1 : ∀ x, index + 2 ^ o ≤ x →
            x < index + 2 ^ o + (page_count - 2 ^ o) → ¬ covers L1 x := by
          intro x hx1 hx2 hc
          rcases hcov1 x hc with h | ⟨ha, hb⟩
          · exact hfresh x (by omega) (by omega) h
          · omega
        obtain ⟨s2, L2, hrec, hInv2, hcov2⟩ :=
          ih (page_count - 2 ^ o) s1 L1 (index + 2 ^ o)
            (by omega) (by omega) hInv1 (by omega) hfresh1
        refine ⟨s2, L2, ?_, hInv2, ?_⟩
        · rw [add_region_go_succ, if_neg h0, ← ho, hfb', Nat.one_shiftLeft]
          exact hrec
        · intro x hc
          rcases hcov2 x hc with h | ⟨ha, hb⟩
          · rcases hcov1 x h with h' | ⟨ha, hb⟩
            · exact Or.inl h'
            · exact Or.inr ⟨ha, by omega⟩
          · exact Or.inr ⟨by omega, by omega⟩

/-- The bitmap of the freshly initialized state is all zeroes. -/
lemma testBit_initState (i : Nat) : testBit initState i = false := by
  unfold testBit initState
  simp

/-- The freshly initialized (all-occupied) state satisfies the
representation invariant with the empty list family. -/
lemma initState_inv : Inv (fun _ => []) initState := by
  refine ⟨fun o => rfl, fun o => trivial, fun o _ => rfl, fun o => List.nodup_nil,
    fun o1 o2 i h1 h2 => absurd h1 (List.not_mem_nil i), ?_,
    fun o i h => absurd h (List.not_mem_nil i),
    fun o i h => absurd h (List.not_mem_nil i),
    fun o1 o2 i1 i2 h1 h2 hne => absurd h1 (List.not_mem_nil i1)⟩
  intro i
  rw [testBit_initState]
  constructor
  · intro h
    exact absurd h (by simp)
  · rintro ⟨o, ho⟩
    exact absurd ho (List.not_mem_nil i)

/-- The full representation invariant implies the invariant exactly as
the spec claims it (the unique order comes from cross-order
distinctness). -/
lemma Inv_implies_ClaimedInv {L : Nat → List Nat} {s : BuddyState} (h : Inv L s) :
    ClaimedInv s := by
  refine ⟨L, h.heads, h.chains, h.highNil, ?_, h.aligned⟩
  intro i
  constructor
  · intro hbit
    obtain ⟨o, ho⟩ := (h.bits i).mp hbit
    exact ⟨o, ho, fun o' ho' => h.cross o' o i ho' ho⟩
  · rintro ⟨o, ho, -⟩
    exact (h.bits i).mpr ⟨o, ho⟩

/-- `alloc_block` can only succeed for an order within the free-list
array bounds. -/
lemma alloc_block_some_le {s : BuddyState} {order : Nat} {p : Nat × BuddyState}
    (h : alloc_block s order = some p) : order ≤ MAX_ORDER := by
  by_contra hgt
  push_neg at hgt
  unfold alloc_block at h
  simp only [alloc_block_go] at h
  rw [if_pos hgt] at h
  cases h

/-- `alloc_block` preserves the representation invariant. -/
lemma alloc_block_inv {s : BuddyState} {L : Nat → List Nat} {order i : Nat}
    {s' : BuddyState} (hInv : Inv L s) (h : alloc_block s order = some (i, s')) :
    ∃ L', Inv L' s' := by
  have ho := alloc_block_some_le h
  obtain ⟨L', hI, -, -, -, -, -⟩ :=
    alloc_block_go_inv (MAX_ORDER + 1) order s L ho (by omega) hInv i s' h
  exact ⟨L', hI⟩

/-- The `alloc_pages` loop preserves the representation invariant: each
iteration is an `alloc_block` at order 0. -/
lemma alloc_pages_inv :
    ∀ n s L, Inv L s → ∀ addrs s', alloc_pages s n = some (addrs, s') →
      ∃ L', Inv L' s' := by
  intro n
  induction n with
  | zero =>
      intro s L hInv addrs s' h
      simp only [alloc_pages] at h
      injection h with h
      have hs : s = s' := congrArg Prod.snd h
      exact ⟨L, hs ▸ hInv⟩
  | succ n ih =>
      intro s L hInv addrs s' h
      simp only [alloc_pages] at h
      cases hab : alloc_block s 0 with
      | none =>
          rw [hab] at h
          cases h
      | some p =>
          obtain ⟨i, s1⟩ := p
          rw [hab] at h
          have h' : (match alloc_pages s1 n with
              | none => none
              | some (addrs, s2) => some (i <<< 12 :: addrs, s2)) =
              some (addrs, s') := h
          obtain ⟨L1, hI1⟩ := alloc_block_inv hInv hab
          cases hrec : alloc_pages s1 n with
          | none =>
              rw [hrec] at h'
              cases h'
          | some q =>
              obtain ⟨addrs2, s2⟩ := q
              rw [hrec] at h'
              injection h' with h'
              have hs : s2 = s' := congrArg Prod.snd h'
              obtain ⟨L', hI'⟩ := ih s1 L1 hI1 addrs2 s2 hrec
              exact ⟨L', hs ▸ hI'⟩

/-- The `free_pages` loop preserves the representation invariant when
the freed pages are distinct, in bounds and not currently free: each
iteration is a `free_block` at order 0, and each block freed earlier in
the loop stays disjoint from the later ones. -/
lemma free_pages_inv :
    ∀ addresses s L, Inv L s →
      (addresses.map (fun a => a >>> 12)).Nodup →
      (∀ a, a ∈ addresses → a >>> 12 + 1 ≤ 2 ^ 64) →
      (∀ a, a ∈ addresses → ¬ covers L (a >>> 12)) →
      ∃ s' L', free_pages s addresses = some s' ∧ Inv L' s' ∧
        (∀ x, covers L' x → covers L x ∨ ∃ a, a ∈ addresses ∧ x = a >>> 12) := by
  intro addresses
  induction addresses with
  | nil =>
      intro s L hInv hnd hbd hfr
      exact ⟨s, L, rfl, hInv, fun x hc => Or.inl hc⟩
  | cons addr rest ih =>
      intro s L hInv hnd hbd hfr
      have h20 : (2 : Nat) ^ 0 = 1 := pow_zero 2
      obtain ⟨s1, L1, hfb, hI1, hcov1⟩ :=
        free_block_go_inv (MAX_ORDER + 1) 0 s L (addr >>> 12) (Nat.zero_le _)
          (by omega) hInv (by simp)
          (by rw [h20]; exact hbd addr (List.mem_cons_self addr rest))
          (by
            intro x hx1 hx2
            have he : x = addr >>> 12 := by omega
            rw [he]
            exact hfr addr (List.mem_cons_self addr rest))
      rw [List.map_cons, List.nodup_cons] at hnd
      obtain ⟨hna, hnd'⟩ := hnd
      obtain ⟨s2, L2, hrun, hI2, hcov2⟩ := ih s1 L1 hI1 hnd'
        (fun a ha => hbd a (List.mem_cons_of_mem addr ha))
        (by
          intro a ha hc
          rcases hcov1 _ hc with h | ⟨h1, h2⟩
          · exact hfr a (List.mem_cons_of_mem addr ha) h
          · have he : a >>> 12 = addr >>> 12 := by omega
            exact hna (he ▸ List.mem_map_of_mem (fun a => a >>> 12) ha))
      refine ⟨s2, L2, ?_, hI2, ?_⟩
      · simp only [free_pages]
        rw [show free_block s (addr >>> 12) 0 = some s1 from hfb]
        exact hrun
      · intro x hc
        rcases hcov2 x hc with h | ⟨a, ha, he⟩
        · rcases hcov1 x h with h' | ⟨h1, h2⟩
          · exact Or.inl h'
          · exact Or.inr ⟨addr, List.mem_cons_self addr rest, by omega⟩
        · exact Or.inr ⟨a, List.mem_cons_of_mem addr ha, he⟩

/-- C5 (counterexample): the invariant exactly as claimed is NOT
unconditionally preserved.  From the freshly initialized state (which
satisfies it), the public `free_linear_pages` call on the misaligned
range of 2 pages at byte address `3 * 4096` succeeds and pushes a free
block of order 1 at page index 3 — and 3 is not aligned to `2^1`, so the
alignment conjunct of the claimed invariant fails afterwards. -/
theorem C5_counterexample_misaligned_free :
    ClaimedInv initState ∧
    free_linear_pages initState (3 * 4096) 2 = some (pushState initState 1 3) ∧
    ¬ ClaimedInv (pushState initState 1 3) := by
  refine ⟨Inv_implies_ClaimedInv initState_inv, rfl, ?_⟩
  rintro ⟨L, hh, hch, hhn, hb, hal⟩
  have h3 : testBit (pushState initState 1 3) 3 = true := rfl
  obtain ⟨o, ho3, -⟩ := (hb 3).mp h3
  have ho0 : o = 0 := by
    have hd := hal o 3 ho3
    cases o with
    | zero => rfl
    | succ o' =>
        exfalso
        have h2 : (2 : Nat) ∣ 3 :=
          dvd_trans (dvd_pow_self 2 (Nat.succ_ne_zero o')) hd
        omega
  subst ho0
  have hL0 : (L 0).head? = none := by
    rw [← hh 0]
    rfl
  cases hL : L 0 with
  | nil =>
      rw [hL] at ho3
      exact absurd ho3 (List.not_mem_nil 3)
  | cons a t =>
      rw [hL] at hL0
      simp at hL0

/-- C5 (amended): invariant preservation holds for every allocator
operation under the natural preconditions.  The real invariant `Inv`
(which implies the claimed one, first conjunct) is preserved by
`free_block` on an aligned, in-bounds, not-currently-free block, by
`alloc_block` unconditionally, by `add_region` on a fresh in-bounds
range, and by the public wrappers `alloc_page`, `alloc_linear_pages`,
`alloc_pages`, `free_page`, `free_linear_pages` and `free_pages` under
the corresponding preconditions. -/
theorem C5_invariant_preservation :
    (∀ L s, Inv L s → ClaimedInv s) ∧
    (∀ s L index order, Inv L s → order ≤ MAX_ORDER → 2 ^ order ∣ index →
      index + 2 ^ order ≤ 2 ^ 64 →
      (∀ x, index ≤ x → x < index + 2 ^ order → ¬ covers L x) →
      ∃ s' L', free_block s index order = some s' ∧ Inv L' s') ∧
    (∀ s L order i s', Inv L s → alloc_block s order = some (i, s') →
      ∃ L', Inv L' s') ∧
    (∀ s L index page_count, Inv L s → page_count < 2 ^ 64 →
      index + page_count ≤ 2 ^ 64 →
      (∀ x, index ≤ x → x < index + page_count → ¬ covers L x) →
      ∃ s' L', add_region s index page_count = some s' ∧ Inv L' s') ∧
    (∀ s L i s', Inv L s → alloc_page s = some (i, s') → ∃ L', Inv L' s') ∧
    (∀ s L count i s', Inv L s → alloc_linear_pages s count = some (i, s') →
      ∃ L', Inv L' s') ∧
    (∀ s L addr, Inv L s → addr >>> 12 + 1 ≤ 2 ^ 64 → ¬ covers L (addr >>> 12) →
      ∃ s' L', free_page s addr = some s' ∧ Inv L' s') ∧
    (∀ s L addr count order, Inv L s → get_size_order count = some order →
      order ≤ MAX_ORDER → 2 ^ order ∣ addr >>> 12 →
      addr >>> 12 + 2 ^ order ≤ 2 ^ 64 →
      (∀ x, addr >>> 12 ≤ x → x < addr >>> 12 + 2 ^ order → ¬ covers L x) →
      ∃ s' L', free_linear_pages s addr count = some s' ∧ Inv L' s') ∧
    (∀ s L n addrs s', Inv L s → alloc_pages s n = some (addrs, s') →
      ∃ L', Inv L' s') ∧
    (∀ s L addresses, Inv L s →
      (addresses.map (fun a => a >>> 12)).Nodup →
      (∀ a, a ∈ addresses → a >>> 12 + 1 ≤ 2 ^ 64) →
      (∀ a, a ∈ addresses → ¬ covers L (a >>> 12)) →
      ∃ s' L', free_pages s addresses = some s' ∧ Inv L' s') := by
  have hfree : ∀ s L index order, Inv L s → order ≤ MAX_ORDER → 2 ^ order ∣ index →
      index + 2 ^ order ≤ 2 ^ 64 →
      (∀ x, index ≤ x → x < index + 2 ^ order → ¬ covers L x) →
      ∃ s' L', free_block s index order = some s' ∧ Inv L' s' := by
    intro s L index order hInv ho hdvd hbd hfr
    obtain ⟨s', L', heq, hI, -⟩ :=
      free_block_go_inv (MAX_ORDER + 1) order s L index ho (by omega) hInv hdvd hbd hfr
    exact ⟨s', L', heq, hI⟩
  have halloc : ∀ s L order i s', Inv L s → alloc_block s order = some (i, s') →
      ∃ L', Inv L' s' := by
    intro s L order i s' hInv halloc
    have ho := alloc_block_some_le halloc
    obtain ⟨L', hI, -, -, -, -, -⟩ :=
      alloc_block_go_inv (MAX_ORDER + 1) order s L ho (by omega) hInv i s' halloc
    exact ⟨L', hI⟩
  refine ⟨fun L s h => Inv_implies_ClaimedInv h, hfree, halloc, ?_, ?_, ?_, ?_, ?_, ?_, ?_⟩
  · intro s L index pc hInv hpc hbd hfr
    obtain ⟨s', L', heq, hI, -⟩ :=
      add_region_go_inv pc pc s L index le_rfl hpc hInv hbd hfr
    exact ⟨s', L', heq, hI⟩
  · intro s L i s' hInv hap
    unfold alloc_page at hap
    obtain ⟨p, hp, hps⟩ := Option.map_eq_some'.mp hap
    have hs' : p.2 = s' := congrArg Prod.snd hps
    obtain ⟨L', hI⟩ := halloc s L 0 p.1 p.2 hInv (by rw [← hp])
    exact ⟨L', hs' ▸ hI⟩
  · intro s L count i s' hInv hal
    unfold alloc_linear_pages at hal
    cases hgs : get_size_order count with
    | none =>
        rw [hgs] at hal
        cases hal
    | some o =>
        rw [hgs] at hal
        obtain ⟨p, hp, hps⟩ := Option.map_eq_some'.mp hal
        have hs' : p.2 = s' := congrArg Prod.snd hps
        obtain ⟨L', hI⟩ := halloc s L o p.1 p.2 hInv (by rw [← hp])
        exact ⟨L', hs' ▸ hI⟩
  · intro s L addr hInv hbd hnc
    have h20 : (2 : Nat) ^ 0 = 1 := pow_zero 2
    have hfr0 : ∀ x, addr >>> 12 ≤ x → x < addr >>> 12 + 2 ^ 0 → ¬ covers L x := by
      intro x h1 h2
      have he : x = addr >>> 12 := by omega
      rw [he]
      exact hnc
    obtain ⟨s', L', heq, hI⟩ :=
      hfree s L (addr >>> 12) 0 hInv (Nat.zero_le _) (by simp) (by omega) hfr0
    exact ⟨s', L', heq, hI⟩
  · intro s L addr count order hInv hgs ho hdvd hbd hfr
    obtain ⟨s', L', heq, hI⟩ :=
      hfree s L (addr >>> 12) order hInv ho hdvd hbd hfr
    refine ⟨s', L', ?_, hI⟩
    unfold free_linear_pages
    rw [hgs]
    exact heq
  · intro s L n addrs s' hInv hap
    exact alloc_pages_inv n s L hInv addrs s' hap
  · intro s L addresses hInv hnd hbd hfr
    obtain ⟨s', L', hrun, hI, -⟩ := free_pages_inv addresses s L hInv hnd hbd hfr
    exact ⟨s', L', hrun, hI⟩

/-- Witness for the amended C5 preservation theorem: freeing page 0 at
order 0 from the freshly initialized state succeeds and yields an
invariant state. -/
theorem C5_invariant_preservation_witness :
    ∃ s' L', free_block initState 0 0 = some s' ∧ Inv L' s' := by
  refine C5_invariant_preservation.2.1 initState (fun _ => []) 0 0 initState_inv
    (by decide) (by decide) (by norm_num) ?_
  intro x h1 h2 hc
  obtain ⟨o, i, hi, -, -⟩ := hc
  exact absurd hi (List.not_mem_nil i)

end SimpleOS
